import Mathlib

/-!
Verification of the ghetto-llvm compiler front-end pipeline:
lexer (src/tokenizer.rs), recursive-descent parser (src/ast.rs),
IR lowering (src/ir.rs) and C text emission (src/cbackend.rs),
embedded shallowly as Lean functions over lists of characters and tokens.
-/

set_option maxHeartbeats 1000000
set_option linter.unreachableTactic false
set_option linter.unusedTactic false

/-- Binary operators. `Plus`, `Minus`, `Star` are declared in
src/src/tokenizer.rs (`enum BinaryOp`); `SingleEqual` is referenced by the
`Display` impl in src/src/ast.rs but missing from the `BinaryOp` declaration
under src/, so it is modelled from that use site and the spec. -/
inductive BinaryOp
  | Plus
  | Minus
  | Star
  | SingleEqual
  deriving DecidableEq, Repr

/-- Number literal flags, from src/src/tokenizer.rs (`enum NumberTypeFlag`).
The current lexer never sets any flag. -/
inductive NumberTypeFlag
  | Signed
  | Floating
  | Hexadecimal
  | Binary
  deriving DecidableEq, Repr

/-- Tokens. `Number` and `BinaryOperator` are the two variants declared in
src/src/tokenizer.rs (`enum Token`). The remaining variants (`Identifier`,
`Let`, `Exit`, `Colon`, `SingleEqual`, `Semicolon`, `OpenParen`,
`CloseParen`) are referenced by the parser in src/src/ast.rs but their
declaration is missing from the tokenizer under src/; they are modelled
from the spec's data model (§3), which lists them exactly. -/
inductive Token
  | Number (raw : String) (flags : List NumberTypeFlag) (offset : Nat)
  | Identifier (name : String)
  | BinaryOperator (op : BinaryOp) (offset : Nat)
  | Let
  | Exit
  | Colon
  | SingleEqual
  | Semicolon
  | OpenParen
  | CloseParen
  deriving DecidableEq, Repr

/-- Lexing errors, from src/src/tokenizer.rs (`enum TokenizeError`). -/
inductive TokenizeError
  | UnexpectedChar
  deriving DecidableEq, Repr

/-- Rust's `char::is_whitespace` (the Unicode `White_Space` property),
used by `Tokenizer::trim_whitespace` in src/src/tokenizer.rs. -/
def rustWhitespace (c : Char) : Bool :=
  let n := c.toNat
  n == 0x09 || n == 0x0A || n == 0x0B || n == 0x0C || n == 0x0D || n == 0x20 ||
  n == 0x85 || n == 0xA0 || n == 0x1680 || (0x2000 ≤ n && n ≤ 0x200A) ||
  n == 0x2028 || n == 0x2029 || n == 0x202F || n == 0x205F || n == 0x3000

/-- Rust's `char::is_ascii_digit`, used for number runs in
`Tokenizer::tokenize`. -/
def isAsciiDigit (c : Char) : Bool :=
  0x30 <= c.toNat && c.toNat <= 0x39

/-- Rust's `char::is_ascii_alphabetic`: the letter that may start an
identifier or keyword in the fuller lexer (spec §4.1). -/
def isAsciiAlpha (c : Char) : Bool :=
  (0x41 <= c.toNat && c.toNat <= 0x5A) || (0x61 <= c.toNat && c.toNat <= 0x7A)

/-- A character that may continue an identifier or keyword in the fuller
lexer: alphanumeric or underscore (spec §4.1). -/
def isWordChar (c : Char) : Bool :=
  isAsciiAlpha c || isAsciiDigit c || c == '_'

/-- The loop body of `Tokenizer::tokenize` in src/src/tokenizer.rs, with the
source held as a list of characters consumed from the front (the Rust code
reverses the characters once and pops from the end, which is the same
cursor) and `off` the running character offset maintained by `consume`.
`trim_whitespace` is realized by skipping one whitespace character per
recursive step, which the loop re-entry makes equivalent to trimming a
whole run at once. Only the pipeline-relevant value is modelled; the
diagnostic payload attached to the error (file name, line/column lookup)
is dropped. -/
def tokenizeLoop : List Char → Nat → Except TokenizeError (List Token)
  | [], _off => .ok []
  | c :: cs, off =>
    if rustWhitespace c then
      tokenizeLoop cs (off + 1)
    else if isAsciiDigit c then
      let ds := cs.takeWhile isAsciiDigit
      match tokenizeLoop (cs.dropWhile isAsciiDigit) (off + 1 + ds.length) with
      | .ok ts => .ok (Token.Number (String.mk (c :: ds)) [] off :: ts)
      | .error e => .error e
    else if c = '+' then
      match tokenizeLoop cs (off + 1) with
      | .ok ts => .ok (Token.BinaryOperator BinaryOp.Plus off :: ts)
      | .error e => .error e
    else if c = '-' then
      match tokenizeLoop cs (off + 1) with
      | .ok ts => .ok (Token.BinaryOperator BinaryOp.Minus off :: ts)
      | .error e => .error e
    else if c = '*' then
      match tokenizeLoop cs (off + 1) with
      | .ok ts => .ok (Token.BinaryOperator BinaryOp.Star off :: ts)
      | .error e => .error e
    else
      .error TokenizeError.UnexpectedChar
  termination_by src _ => src.length
  decreasing_by
    all_goals simp only [List.length_cons]
    · omega
    · have := (List.dropWhile_sublist (l := cs) isAsciiDigit).length_le
      omega
    all_goals omega

/-- `Tokenizer::tokenize` from src/src/tokenizer.rs on a source given as a
character list, starting at offset 0 as `Tokenizer::new` does. -/
def Tokenizer.tokenize (source : List Char) : Except TokenizeError (List Token) :=
  tokenizeLoop source 0

/-- Modelled from the spec: the fuller lexer of the language, whose token
variants (`Identifier`, `Let`, `Exit`, `Colon`, `SingleEqual`, `Semicolon`,
`OpenParen`, `CloseParen`) are consumed by the parser in src/src/ast.rs but
whose recognizing code is missing from src/src/tokenizer.rs. Spec §4.1:
same greedy scan as `Tokenizer::tokenize` (skip whitespace, maximal digit
runs, one-character operators), extended so that a maximal run of
alphanumeric/underscore characters starting with a letter is an identifier
unless it exactly matches a reserved word (`let`, `exit`), and the
punctuation `:` `=` `;` `(` `)` lexes to the corresponding token. -/
def fullTokenizeLoop : List Char → Nat → Except TokenizeError (List Token)
  | [], _off => .ok []
  | c :: cs, off =>
    if rustWhitespace c then
      fullTokenizeLoop cs (off + 1)
    else if isAsciiDigit c then
      let ds := cs.takeWhile isAsciiDigit
      match fullTokenizeLoop (cs.dropWhile isAsciiDigit) (off + 1 + ds.length) with
      | .ok ts => .ok (Token.Number (String.mk (c :: ds)) [] off :: ts)
      | .error e => .error e
    else if isAsciiAlpha c then
      let ws := cs.takeWhile isWordChar
      let word := String.mk (c :: ws)
      match fullTokenizeLoop (cs.dropWhile isWordChar)
          (off + 1 + ws.length) with
      | .ok ts =>
        .ok ((if word = "let" then Token.Let
              else if word = "exit" then Token.Exit
              else Token.Identifier word) :: ts)
      | .error e => .error e
    else if c = '+' then
      match fullTokenizeLoop cs (off + 1) with
      | .ok ts => .ok (Token.BinaryOperator BinaryOp.Plus off :: ts)
      | .error e => .error e
    else if c = '-' then
      match fullTokenizeLoop cs (off + 1) with
      | .ok ts => .ok (Token.BinaryOperator BinaryOp.Minus off :: ts)
      | .error e => .error e
    else if c = '*' then
      match fullTokenizeLoop cs (off + 1) with
      | .ok ts => .ok (Token.BinaryOperator BinaryOp.Star off :: ts)
      | .error e => .error e
    else if c = ':' then
      match fullTokenizeLoop cs (off + 1) with
      | .ok ts => .ok (Token.Colon :: ts)
      | .error e => .error e
    else if c = '=' then
      match fullTokenizeLoop cs (off + 1) with
      | .ok ts => .ok (Token.SingleEqual :: ts)
      | .error e => .error e
    else if c = ';' then
      match fullTokenizeLoop cs (off + 1) with
      | .ok ts => .ok (Token.Semicolon :: ts)
      | .error e => .error e
    else if c = '(' then
      match fullTokenizeLoop cs (off + 1) with
      | .ok ts => .ok (Token.OpenParen :: ts)
      | .error e => .error e
    else if c = ')' then
      match fullTokenizeLoop cs (off + 1) with
      | .ok ts => .ok (Token.CloseParen :: ts)
      | .error e => .error e
    else
      .error TokenizeError.UnexpectedChar
  termination_by src _ => src.length
  decreasing_by
    all_goals simp only [List.length_cons]
    · omega
    · have := (List.dropWhile_sublist (l := cs) isAsciiDigit).length_le
      omega
    · have := (List.dropWhile_sublist (l := cs) isWordChar).length_le
      omega
    all_goals omega

/-- Modelled from the spec: entry point of the fuller lexer, starting at
offset 0 exactly as `Tokenizer::tokenize` does. -/
def fullTokenize (source : List Char) : Except TokenizeError (List Token) :=
  fullTokenizeLoop source 0

/-- AST expression nodes, from src/src/ast.rs (`enum AstExpression`). -/
inductive AstExpression
  | Number (raw : String) (flags : List NumberTypeFlag)
  | BinaryOperation (left : AstExpression) (operator : BinaryOp) (right : AstExpression)
  | Identifier (name : String)
  deriving DecidableEq, Repr

/-- AST statement nodes, from src/src/ast.rs (`enum AstStatement`). -/
inductive AstStatement
  | Let (value : AstExpression) (name : String) (t : String)
  | Exit (value : AstExpression)
  deriving DecidableEq, Repr

/-- The `Display` impl for `AstExpression` in src/src/ast.rs: in-order
traversal writing the left subtree, one operator character, and the right
subtree, with no parentheses. -/
def AstExpression.toString : AstExpression → String
  | .Number raw _flags => raw
  | .Identifier name => name
  | .BinaryOperation left operator right =>
    left.toString ++
      (match operator with
        | BinaryOp.Plus => "+"
        | BinaryOp.Minus => "-"
        | BinaryOp.Star => "*"
        | BinaryOp.SingleEqual => "=") ++
      right.toString

/-- Statement-level parse errors, from src/src/ast.rs (`enum AstParseError`). -/
inductive AstParseError
  | InvalidExpression
  | ExpressionAtToplevel
  | InvalidLetStatement
  deriving DecidableEq, Repr

/-- Expression-level parse errors, from src/src/ast.rs
(`enum ExpressionParseError`). -/
inductive ExpressionParseError
  | InvalidFactorToken (found : Option Token)
  deriving DecidableEq, Repr

mutual

/-- `AstParser::factor` from src/src/ast.rs: a number token, an identifier
token, or a parenthesized expression. The returned remainder is packaged
with a proof that at least one token was consumed; `AstParser.factor`
strips the proof. -/
def factorImpl : (ts : List Token) →
    Except ExpressionParseError (AstExpression × { rest : List Token // rest.length < ts.length })
  | Token.Number raw flags _off :: rest =>
    .ok (AstExpression.Number raw flags, ⟨rest, by simp⟩)
  | Token.Identifier name :: rest =>
    .ok (AstExpression.Identifier name, ⟨rest, by simp⟩)
  | Token.OpenParen :: rest =>
    match expressionImpl rest with
    | .error e => .error e
    | .ok (node, ⟨rest', h⟩) =>
      if rest'.head? = some Token.CloseParen then
        .ok (node, ⟨rest'.tail, by simp [List.length_tail]; omega⟩)
      else
        .error (ExpressionParseError.InvalidFactorToken rest'.head?)
  | ts => .error (ExpressionParseError.InvalidFactorToken ts.head?)
  termination_by ts => (ts.length, 0)
  decreasing_by
    all_goals try simp only [List.length_cons] at *
    all_goals first
      | (apply Prod.Lex.right; omega)
      | (apply Prod.Lex.left; omega)
      | exact Prod.Lex.left _ _ h

/-- The `while` loop of `AstParser::term` in src/src/ast.rs: as long as the
next token is a `Star` operator, eat it, parse a factor, and fold it into
the accumulated node on the left. -/
def termLoopImpl (node : AstExpression) : (ts : List Token) →
    Except ExpressionParseError (AstExpression × { rest : List Token // rest.length ≤ ts.length })
  | Token.BinaryOperator BinaryOp.Star _off :: rest =>
    match factorImpl rest with
    | .error e => .error e
    | .ok (rhs, ⟨rest', h⟩) =>
      match termLoopImpl (AstExpression.BinaryOperation node BinaryOp.Star rhs) rest' with
      | .error e => .error e
      | .ok (node', ⟨rest'', h''⟩) => .ok (node', ⟨rest'', by simp; omega⟩)
  | ts => .ok (node, ⟨ts, le_refl _⟩)
  termination_by ts => (ts.length, 1)
  decreasing_by
    all_goals try simp only [List.length_cons] at *
    all_goals first
      | (apply Prod.Lex.right; omega)
      | (apply Prod.Lex.left; omega)
      | exact Prod.Lex.left _ _ h

/-- `AstParser::term` from src/src/ast.rs: a factor followed by the star
loop. -/
def termImpl (ts : List Token) :
    Except ExpressionParseError (AstExpression × { rest : List Token // rest.length < ts.length }) :=
  match factorImpl ts with
  | .error e => .error e
  | .ok (node, ⟨rest, h⟩) =>
    match termLoopImpl node rest with
    | .error e => .error e
    | .ok (node', ⟨rest', h'⟩) => .ok (node', ⟨rest', lt_of_le_of_lt h' h⟩)
  termination_by (ts.length, 2)
  decreasing_by
    all_goals try simp only [List.length_cons] at *
    all_goals first
      | (apply Prod.Lex.right; omega)
      | (apply Prod.Lex.left; omega)
      | exact Prod.Lex.left _ _ h

/-- The `while` loop of `AstParser::expression` in src/src/ast.rs: as long
as the next token is a `Plus` or `Minus` operator, eat it, parse a term,
and fold it into the accumulated node on the left. -/
def exprLoopImpl (node : AstExpression) : (ts : List Token) →
    Except ExpressionParseError (AstExpression × { rest : List Token // rest.length ≤ ts.length })
  | Token.BinaryOperator BinaryOp.Plus _off :: rest =>
    match termImpl rest with
    | .error e => .error e
    | .ok (rhs, ⟨rest', h⟩) =>
      match exprLoopImpl (AstExpression.BinaryOperation node BinaryOp.Plus rhs) rest' with
      | .error e => .error e
      | .ok (node', ⟨rest'', h''⟩) => .ok (node', ⟨rest'', by simp; omega⟩)
  | Token.BinaryOperator BinaryOp.Minus _off :: rest =>
    match termImpl rest with
    | .error e => .error e
    | .ok (rhs, ⟨rest', h⟩) =>
      match exprLoopImpl (AstExpression.BinaryOperation node BinaryOp.Minus rhs) rest' with
      | .error e => .error e
      | .ok (node', ⟨rest'', h''⟩) => .ok (node', ⟨rest'', by simp; omega⟩)
  | ts => .ok (node, ⟨ts, le_refl _⟩)
  termination_by ts => (ts.length, 3)
  decreasing_by
    all_goals try simp only [List.length_cons] at *
    all_goals first
      | (apply Prod.Lex.right; omega)
      | (apply Prod.Lex.left; omega)
      | exact Prod.Lex.left _ _ h

/-- `AstParser::expression` from src/src/ast.rs: a term followed by the
plus/minus loop. -/
def expressionImpl : (ts : List Token) →
    Except ExpressionParseError (AstExpression × { rest : List Token // rest.length < ts.length })
  | ts =>
    match termImpl ts with
    | .error e => .error e
    | .ok (node, ⟨rest, h⟩) =>
      match exprLoopImpl node rest with
      | .error e => .error e
      | .ok (node', ⟨rest', h'⟩) => .ok (node', ⟨rest', lt_of_le_of_lt h' h⟩)
  termination_by ts => (ts.length, 4)
  decreasing_by
    all_goals try simp only [List.length_cons] at *
    all_goals first
      | (apply Prod.Lex.right; omega)
      | (apply Prod.Lex.left; omega)
      | exact Prod.Lex.left _ _ h

end

namespace AstParser

/-- `AstParser::factor`, with the consumption proof stripped. -/
def factor (ts : List Token) : Except ExpressionParseError (AstExpression × List Token) :=
  match factorImpl ts with
  | .error e => .error e
  | .ok (node, rest) => .ok (node, rest.val)

/-- The star loop of `AstParser::term`, with the consumption proof
stripped. -/
def termLoop (node : AstExpression) (ts : List Token) :
    Except ExpressionParseError (AstExpression × List Token) :=
  match termLoopImpl node ts with
  | .error e => .error e
  | .ok (node', rest) => .ok (node', rest.val)

/-- `AstParser::term`, with the consumption proof stripped. -/
def term (ts : List Token) : Except ExpressionParseError (AstExpression × List Token) :=
  match termImpl ts with
  | .error e => .error e
  | .ok (node, rest) => .ok (node, rest.val)

/-- The plus/minus loop of `AstParser::expression`, with the consumption
proof stripped. -/
def exprLoop (node : AstExpression) (ts : List Token) :
    Except ExpressionParseError (AstExpression × List Token) :=
  match exprLoopImpl node ts with
  | .error e => .error e
  | .ok (node', rest) => .ok (node', rest.val)

/-- `AstParser::expression`, with the consumption proof stripped. -/
def expression (ts : List Token) : Except ExpressionParseError (AstExpression × List Token) :=
  match expressionImpl ts with
  | .error e => .error e
  | .ok (node, rest) => .ok (node, rest.val)

/-- `AstParser::parse` from src/src/ast.rs. The Rust loop pops tokens from
the front of the (reversed) vector; the `Let` arm eats the `let` keyword
and then four tokens (name, the position the `// Colon` comment refers to,
type, the `// =` position) without inspecting positions 1 and 3, parses an
expression, eats one more token (the `// ;` position) without inspecting
it, and only then pattern-matches the name, the type, and the shape of the
parsed expression. The `Exit` arm eats the keyword and parses an
expression. A run of semicolons at statement position is skipped. Anything
else is `ExpressionAtToplevel`. -/
def parse : List Token → Except AstParseError (List AstStatement)
  | [] => .ok []
  | Token.Let :: rest =>
    match expressionImpl (rest.drop 4) with
    | .error _e => .error AstParseError.InvalidExpression
    | .ok (value, ⟨rest', _hlt⟩) =>
      match rest.head?, (rest.drop 2).head?, value with
      | some (Token.Identifier name), some (Token.Identifier t),
        AstExpression.BinaryOperation l op r =>
        match parse rest'.tail with
        | .error e => .error e
        | .ok nodes =>
          .ok (AstStatement.Let (AstExpression.BinaryOperation l op r) name t :: nodes)
      | some (Token.Identifier name), some (Token.Identifier t),
        AstExpression.Number raw flags =>
        match parse rest'.tail with
        | .error e => .error e
        | .ok nodes => .ok (AstStatement.Let (AstExpression.Number raw flags) name t :: nodes)
      | _, _, _ => .error AstParseError.InvalidLetStatement
  | Token.Exit :: rest =>
    match expressionImpl rest with
    | .error _e => .error AstParseError.InvalidExpression
    | .ok (value, ⟨rest', _hlt⟩) =>
      match parse rest' with
      | .error e => .error e
      | .ok nodes => .ok (AstStatement.Exit value :: nodes)
  | Token.Semicolon :: rest =>
    parse (rest.dropWhile fun t => t = Token.Semicolon)
  | _ => .error AstParseError.ExpressionAtToplevel
  termination_by ts => ts.length
  decreasing_by
    all_goals simp only [List.length_cons]
    all_goals first
      | (have h2 := List.length_drop 4 rest
         have h3 := List.length_tail rest'
         omega)
      | (exact Nat.lt_succ_of_le ((List.dropWhile_sublist _).length_le))
      | omega

end AstParser

/-- IR instructions, from src/src/ir.rs (`enum IR`). -/
inductive IR
  | DefineVariable (name : String) (t : String) (value : AstExpression)
  | Exit (value : AstExpression)
  deriving DecidableEq, Repr

/-- The `while let` loop of `IrGenerator::generate` in src/src/ir.rs: the
constructor reverses the program once and the loop pops from the end, so
statements are consumed in source order and each lowered instruction is
pushed onto the output vector. -/
def generateLoop : List AstStatement → List IR → List IR
  | [], ir => ir
  | AstStatement.Exit value :: rest, ir => generateLoop rest (ir ++ [IR.Exit value])
  | AstStatement.Let value name t :: rest, ir =>
    generateLoop rest (ir ++ [IR.DefineVariable name t value])

/-- `IrGenerator::generate` from src/src/ir.rs, starting from an empty
output vector. -/
def IrGenerator.generate (program : List AstStatement) : List IR :=
  generateLoop program []

/-- The `while let` loop of `CBackend::compile` in src/src/cbackend.rs:
the constructor reverses the instruction vector once and the loop pops
from the end, so instructions are emitted in order, each appending one
line to the output buffer. -/
def compileLoop : List IR → String → String
  | [], acc => acc
  | IR.DefineVariable name t value :: rest, acc =>
    compileLoop rest (acc ++ t ++ " " ++ name ++ " = " ++ value.toString ++ ";\n")
  | IR.Exit value :: rest, acc =>
    compileLoop rest (acc ++ "exit(" ++ value.toString ++ ");\n")

/-- `CBackend::compile` from src/src/cbackend.rs: fixed prologue, one line
per instruction, fixed epilogue, accumulated in an in-memory buffer. -/
def CBackend.compile (program : List IR) : String :=
  compileLoop program
      "#include <stdlib.h>\n#include <stdint.h>\n#define u64 uint64_t\nint main() \x7b\n"
    ++ "\x7d\n"

/-- Claim-side (C7): the operator characters recognized by the lexer. -/
def isOperatorChar (c : Char) : Bool :=
  c == '+' || c == '-' || c == '*'

/-- Claim-side (C7): the number of maximal runs of consecutive ASCII digits
in a source text. -/
def specCountDigitRuns : List Char → Nat
  | [] => 0
  | c :: cs =>
    if isAsciiDigit c then 1 + specCountDigitRuns (cs.dropWhile isAsciiDigit)
    else specCountDigitRuns cs
  termination_by src => src.length
  decreasing_by
    all_goals simp only [List.length_cons]
    · have := (List.dropWhile_sublist (l := cs) isAsciiDigit).length_le
      omega
    · omega

/-- Claim-side (C8): the UTF-8 encoded size of a character in bytes. -/
def charUtf8Size (c : Char) : Nat :=
  if c.toNat < 0x80 then 1
  else if c.toNat < 0x800 then 2
  else if c.toNat < 0x10000 then 3
  else 4

/-- Claim-side (C8): the byte index corresponding to character index `i` of
a source text, that is, the total UTF-8 size of the characters before it. -/
def utf8ByteIndex (src : List Char) (i : Nat) : Nat :=
  ((src.take i).map charUtf8Size).sum

/-- The offset stored in a token, for the two token kinds that store one. -/
def tokOffset : Token → Option Nat
  | Token.Number _ _ off => some off
  | Token.BinaryOperator _ off => some off
  | _ => none

/-- The first source character of a token produced by `Tokenizer.tokenize`. -/
def tokFirstChar : Token → Option Char
  | Token.Number raw _ _ => raw.data.head?
  | Token.BinaryOperator BinaryOp.Plus _ => some '+'
  | Token.BinaryOperator BinaryOp.Minus _ => some '-'
  | Token.BinaryOperator BinaryOp.Star _ => some '*'
  | _ => none

/-- A token as produced by lexing a parenthesis-free source made of digits,
`+ - *` and whitespace: a `Number` token carrying a nonempty all-digit raw
string and no flags, or one of the three operator tokens. -/
def LexedNumOp (t : Token) : Prop :=
  (∃ raw off, t = Token.Number raw [] off ∧ raw.data ≠ [] ∧ raw.data.all isAsciiDigit) ∨
  (∃ op off, t = Token.BinaryOperator op off ∧
    (op = BinaryOp.Plus ∨ op = BinaryOp.Minus ∨ op = BinaryOp.Star))

/-- Canonical factor shape: a number literal with digit text and no flags
(claim C4 scaffolding). -/
inductive IsFactorTree : AstExpression → Prop
  | num (raw : String) (h1 : raw.data ≠ []) (h2 : raw.data.all isAsciiDigit) :
      IsFactorTree (AstExpression.Number raw [])

/-- Canonical term shape: a left-leaning chain of `Star` over factors. -/
inductive IsTermTree : AstExpression → Prop
  | base : IsFactorTree e → IsTermTree e
  | star : IsTermTree l → IsFactorTree r →
      IsTermTree (AstExpression.BinaryOperation l BinaryOp.Star r)

/-- Canonical expression shape: a left-leaning chain of `Plus`/`Minus` over
terms. These are exactly the trees the expression grammar produces from
parenthesis-free token sequences. -/
inductive IsExprTree : AstExpression → Prop
  | base : IsTermTree e → IsExprTree e
  | plus : IsExprTree l → IsTermTree r →
      IsExprTree (AstExpression.BinaryOperation l BinaryOp.Plus r)
  | minus : IsExprTree l → IsTermTree r →
      IsExprTree (AstExpression.BinaryOperation l BinaryOp.Minus r)

/-- Token renderings of a canonical factor. -/
inductive FactorToks : AstExpression → List Token → Prop
  | num (raw : String) (off : Nat) (h1 : raw.data ≠ []) (h2 : raw.data.all isAsciiDigit) :
      FactorToks (AstExpression.Number raw []) [Token.Number raw [] off]

/-- Token renderings of a canonical term (infix, no parentheses). -/
inductive TermToks : AstExpression → List Token → Prop
  | base : FactorToks e ts → TermToks e ts
  | star (off : Nat) : TermToks l ts1 → FactorToks r ts2 →
      TermToks (AstExpression.BinaryOperation l BinaryOp.Star r)
        (ts1 ++ Token.BinaryOperator BinaryOp.Star off :: ts2)

/-- Token renderings of a canonical expression (infix, no parentheses). -/
inductive ExprToks : AstExpression → List Token → Prop
  | base : TermToks e ts → ExprToks e ts
  | plus (off : Nat) : ExprToks l ts1 → TermToks r ts2 →
      ExprToks (AstExpression.BinaryOperation l BinaryOp.Plus r)
        (ts1 ++ Token.BinaryOperator BinaryOp.Plus off :: ts2)
  | minus (off : Nat) : ExprToks l ts1 → TermToks r ts2 →
      ExprToks (AstExpression.BinaryOperation l BinaryOp.Minus r)
        (ts1 ++ Token.BinaryOperator BinaryOp.Minus off :: ts2)

/-- A `(star, factor)*` continuation as consumed by the star loop of
`term`, relating the accumulated node to the finished node. -/
inductive StarChain : AstExpression → AstExpression → List Token → Prop
  | nil (node : AstExpression) : StarChain node node []
  | cons (off : Nat) : FactorToks f ts1 →
      StarChain (AstExpression.BinaryOperation node BinaryOp.Star f) result ts2 →
      StarChain node result (Token.BinaryOperator BinaryOp.Star off :: (ts1 ++ ts2))

/-- A `((plus|minus), term)*` continuation as consumed by the plus/minus
loop of `expression`, relating the accumulated node to the finished node. -/
inductive PMChain : AstExpression → AstExpression → List Token → Prop
  | nil (node : AstExpression) : PMChain node node []
  | plus (off : Nat) : TermToks t ts1 →
      PMChain (AstExpression.BinaryOperation node BinaryOp.Plus t) result ts2 →
      PMChain node result (Token.BinaryOperator BinaryOp.Plus off :: (ts1 ++ ts2))
  | minus (off : Nat) : TermToks t ts1 →
      PMChain (AstExpression.BinaryOperation node BinaryOp.Minus t) result ts2 →
      PMChain node result (Token.BinaryOperator BinaryOp.Minus off :: (ts1 ++ ts2))

/-- The token list does not begin with a `Star` operator (so the star loop
stops). -/
def NoStarHead (ts : List Token) : Prop :=
  ∀ off, ts.head? ≠ some (Token.BinaryOperator BinaryOp.Star off)

/-- The token list does not begin with a `Plus` or `Minus` operator (so the
plus/minus loop stops). -/
def NoPMHead (ts : List Token) : Prop :=
  ∀ off, ts.head? ≠ some (Token.BinaryOperator BinaryOp.Plus off) ∧
    ts.head? ≠ some (Token.BinaryOperator BinaryOp.Minus off)

/-- Claim-side (C4): removal of all parentheses from a source text. -/
def stripParens (src : List Char) : List Char :=
  src.filter (fun c => !(c == '(' || c == ')'))

theorem factor_number (raw : String) (flags : List NumberTypeFlag) (off : Nat)
    (rest : List Token) :
    AstParser.factor (Token.Number raw flags off :: rest) =
      .ok (AstExpression.Number raw flags, rest) := by
  simp [AstParser.factor, factorImpl]

theorem factor_identifier (name : String) (rest : List Token) :
    AstParser.factor (Token.Identifier name :: rest) =
      .ok (AstExpression.Identifier name, rest) := by
  simp [AstParser.factor, factorImpl]

theorem factor_paren (rest : List Token) :
    AstParser.factor (Token.OpenParen :: rest) =
      match AstParser.expression rest with
      | .error e => .error e
      | .ok (node, rest') =>
        if rest'.head? = some Token.CloseParen then .ok (node, rest'.tail)
        else .error (ExpressionParseError.InvalidFactorToken rest'.head?) := by
  unfold AstParser.factor AstParser.expression
  simp only [factorImpl]
  cases h : expressionImpl rest with
  | error e => simp
  | ok p =>
    obtain ⟨node, rest', hlen⟩ := p
    by_cases hc : rest'.head? = some Token.CloseParen <;> simp [hc]

theorem termLoop_star (node : AstExpression) (off : Nat) (rest : List Token) :
    AstParser.termLoop node (Token.BinaryOperator BinaryOp.Star off :: rest) =
      match AstParser.factor rest with
      | .error e => .error e
      | .ok (rhs, rest') =>
        AstParser.termLoop (AstExpression.BinaryOperation node BinaryOp.Star rhs) rest' := by
  unfold AstParser.termLoop AstParser.factor
  simp only [termLoopImpl]
  cases h : factorImpl rest with
  | error e => simp
  | ok p =>
    obtain ⟨rhs, rest', hlen⟩ := p
    cases h2 : termLoopImpl (AstExpression.BinaryOperation node BinaryOp.Star rhs) rest' with
    | error e => simp [h2]
    | ok q =>
      obtain ⟨node', rest'', hlen2⟩ := q
      simp [h2]

theorem termLoop_stop (node : AstExpression) (ts : List Token) (h : NoStarHead ts) :
    AstParser.termLoop node ts = .ok (node, ts) := by
  unfold AstParser.termLoop
  cases ts with
  | nil => simp [termLoopImpl]
  | cons t rest =>
    cases t with
    | BinaryOperator op off =>
      cases op with
      | Star => exact absurd rfl (h off)
      | Plus => simp [termLoopImpl]
      | Minus => simp [termLoopImpl]
      | SingleEqual => simp [termLoopImpl]
    | Number raw flags off => simp [termLoopImpl]
    | Identifier name => simp [termLoopImpl]
    | Let => simp [termLoopImpl]
    | Exit => simp [termLoopImpl]
    | Colon => simp [termLoopImpl]
    | SingleEqual => simp [termLoopImpl]
    | Semicolon => simp [termLoopImpl]
    | OpenParen => simp [termLoopImpl]
    | CloseParen => simp [termLoopImpl]

theorem term_eq (ts : List Token) :
    AstParser.term ts =
      match AstParser.factor ts with
      | .error e => .error e
      | .ok (node, rest) => AstParser.termLoop node rest := by
  unfold AstParser.term AstParser.factor AstParser.termLoop termImpl
  cases h : factorImpl ts with
  | error e => simp
  | ok p =>
    obtain ⟨node, rest, hlen⟩ := p
    cases h2 : termLoopImpl node rest with
    | error e => simp [h2]
    | ok q =>
      obtain ⟨node', rest', hlen2⟩ := q
      simp [h2]

theorem exprLoop_plus (node : AstExpression) (off : Nat) (rest : List Token) :
    AstParser.exprLoop node (Token.BinaryOperator BinaryOp.Plus off :: rest) =
      match AstParser.term rest with
      | .error e => .error e
      | .ok (rhs, rest') =>
        AstParser.exprLoop (AstExpression.BinaryOperation node BinaryOp.Plus rhs) rest' := by
  unfold AstParser.exprLoop AstParser.term
  simp only [exprLoopImpl]
  cases h : termImpl rest with
  | error e => simp
  | ok p =>
    obtain ⟨rhs, rest', hlen⟩ := p
    cases h2 : exprLoopImpl (AstExpression.BinaryOperation node BinaryOp.Plus rhs) rest' with
    | error e => simp [h2]
    | ok q =>
      obtain ⟨node', rest'', hlen2⟩ := q
      simp [h2]

theorem exprLoop_minus (node : AstExpression) (off : Nat) (rest : List Token) :
    AstParser.exprLoop node (Token.BinaryOperator BinaryOp.Minus off :: rest) =
      match AstParser.term rest with
      | .error e => .error e
      | .ok (rhs, rest') =>
        AstParser.exprLoop (AstExpression.BinaryOperation node BinaryOp.Minus rhs) rest' := by
  unfold AstParser.exprLoop AstParser.term
  simp only [exprLoopImpl]
  cases h : termImpl rest with
  | error e => simp
  | ok p =>
    obtain ⟨rhs, rest', hlen⟩ := p
    cases h2 : exprLoopImpl (AstExpression.BinaryOperation node BinaryOp.Minus rhs) rest' with
    | error e => simp [h2]
    | ok q =>
      obtain ⟨node', rest'', hlen2⟩ := q
      simp [h2]

theorem exprLoop_stop (node : AstExpression) (ts : List Token) (h : NoPMHead ts) :
    AstParser.exprLoop node ts = .ok (node, ts) := by
  unfold AstParser.exprLoop
  cases ts with
  | nil => simp [exprLoopImpl]
  | cons t rest =>
    cases t with
    | BinaryOperator op off =>
      cases op with
      | Plus => exact absurd rfl (h off).1
      | Minus => exact absurd rfl (h off).2
      | Star => simp [exprLoopImpl]
      | SingleEqual => simp [exprLoopImpl]
    | Number raw flags off => simp [exprLoopImpl]
    | Identifier name => simp [exprLoopImpl]
    | Let => simp [exprLoopImpl]
    | Exit => simp [exprLoopImpl]
    | Colon => simp [exprLoopImpl]
    | SingleEqual => simp [exprLoopImpl]
    | Semicolon => simp [exprLoopImpl]
    | OpenParen => simp [exprLoopImpl]
    | CloseParen => simp [exprLoopImpl]

theorem expression_eq (ts : List Token) :
    AstParser.expression ts =
      match AstParser.term ts with
      | .error e => .error e
      | .ok (node, rest) => AstParser.exprLoop node rest := by
  unfold AstParser.expression AstParser.term AstParser.exprLoop expressionImpl
  cases h : termImpl ts with
  | error e => simp [h]
  | ok p =>
    obtain ⟨node, rest, hlen⟩ := p
    cases h2 : exprLoopImpl node rest with
    | error e => simp [h, h2]
    | ok q =>
      obtain ⟨node', rest', hlen2⟩ := q
      simp [h, h2]

theorem expression_ok_iff {ts : List Token} {e : AstExpression} {rest : List Token} :
    AstParser.expression ts = .ok (e, rest) ↔
      ∃ h : rest.length < ts.length, expressionImpl ts = .ok (e, ⟨rest, h⟩) := by
  unfold AstParser.expression
  cases h : expressionImpl ts with
  | error e' => simp
  | ok p =>
    obtain ⟨e', rest', hlen⟩ := p
    simp only [Except.ok.injEq, Prod.mk.injEq, Subtype.mk.injEq]
    constructor
    · rintro ⟨rfl, rfl⟩
      exact ⟨hlen, rfl, rfl⟩
    · rintro ⟨hh, rfl, rfl⟩
      exact ⟨rfl, rfl⟩

theorem expression_consumes {ts : List Token} {e : AstExpression} {rest : List Token}
    (h : AstParser.expression ts = .ok (e, rest)) : rest.length < ts.length :=
  (expression_ok_iff.mp h).1

theorem parse_nil : AstParser.parse [] = .ok [] := by
  simp [AstParser.parse]

theorem parse_let (rest : List Token) :
    AstParser.parse (Token.Let :: rest) =
      match AstParser.expression (rest.drop 4) with
      | .error _ => .error AstParseError.InvalidExpression
      | .ok (value, rest') =>
        match rest.head?, (rest.drop 2).head?, value with
        | some (Token.Identifier name), some (Token.Identifier t),
          AstExpression.BinaryOperation l op r =>
          (match AstParser.parse rest'.tail with
            | .error e => .error e
            | .ok nodes =>
              .ok (AstStatement.Let (AstExpression.BinaryOperation l op r) name t :: nodes))
        | some (Token.Identifier name), some (Token.Identifier t),
          AstExpression.Number raw flags =>
          (match AstParser.parse rest'.tail with
            | .error e => .error e
            | .ok nodes => .ok (AstStatement.Let (AstExpression.Number raw flags) name t :: nodes))
        | _, _, _ => .error AstParseError.InvalidLetStatement := by
  rw [show AstParser.parse (Token.Let :: rest) =
      (match expressionImpl (rest.drop 4) with
        | .error _e => .error AstParseError.InvalidExpression
        | .ok (value, ⟨rest', _hlt⟩) =>
          match rest.head?, (rest.drop 2).head?, value with
          | some (Token.Identifier name), some (Token.Identifier t),
            AstExpression.BinaryOperation l op r =>
            (match AstParser.parse rest'.tail with
              | .error e => .error e
              | .ok nodes =>
                .ok (AstStatement.Let (AstExpression.BinaryOperation l op r) name t :: nodes))
          | some (Token.Identifier name), some (Token.Identifier t),
            AstExpression.Number raw flags =>
            (match AstParser.parse rest'.tail with
              | .error e => .error e
              | .ok nodes =>
                .ok (AstStatement.Let (AstExpression.Number raw flags) name t :: nodes))
          | _, _, _ => .error AstParseError.InvalidLetStatement) from by
    simp [AstParser.parse]]
  unfold AstParser.expression
  cases h : expressionImpl (rest.drop 4) with
  | error e => simp
  | ok p =>
    obtain ⟨value, rest', hlen⟩ := p
    rfl

theorem parse_exit (rest : List Token) :
    AstParser.parse (Token.Exit :: rest) =
      match AstParser.expression rest with
      | .error _ => .error AstParseError.InvalidExpression
      | .ok (value, rest') =>
        match AstParser.parse rest' with
        | .error e => .error e
        | .ok nodes => .ok (AstStatement.Exit value :: nodes) := by
  rw [show AstParser.parse (Token.Exit :: rest) =
      (match expressionImpl rest with
        | .error _e => .error AstParseError.InvalidExpression
        | .ok (value, ⟨rest', _hlt⟩) =>
          match AstParser.parse rest' with
          | .error e => .error e
          | .ok nodes => .ok (AstStatement.Exit value :: nodes)) from by
    simp [AstParser.parse]]
  unfold AstParser.expression
  cases h : expressionImpl rest with
  | error e => simp
  | ok p =>
    obtain ⟨value, rest', hlen⟩ := p
    rfl

theorem parse_semicolon (rest : List Token) :
    AstParser.parse (Token.Semicolon :: rest) =
      AstParser.parse (rest.dropWhile fun t => t = Token.Semicolon) := by
  simp [AstParser.parse]

theorem ws_not_digit {c : Char} (h : rustWhitespace c = true) : isAsciiDigit c = false := by
  simp [rustWhitespace] at h
  simp [isAsciiDigit]
  omega

theorem ws_not_op {c : Char} (h : rustWhitespace c = true) : isOperatorChar c = false := by
  cases hop : isOperatorChar c
  · rfl
  · simp [isOperatorChar] at hop
    rcases hop with (rfl | rfl) | rfl <;> simp [rustWhitespace] at h

theorem digit_not_op {c : Char} (h : isAsciiDigit c = true) : isOperatorChar c = false := by
  cases hop : isOperatorChar c
  · rfl
  · simp [isOperatorChar] at hop
    rcases hop with (rfl | rfl) | rfl <;> simp [isAsciiDigit] at h

theorem op_cases {c : Char} (h : isOperatorChar c = true) :
    c = '+' ∨ c = '-' ∨ c = '*' := by
  simpa [isOperatorChar, or_assoc] using h

theorem tokenizeLoop_tokens (src : List Char) (off : Nat) :
    ∀ ts, tokenizeLoop src off = .ok ts → ∀ t ∈ ts, LexedNumOp t := by
  induction src, off using tokenizeLoop.induct with
  | case1 off =>
    intro ts hts t ht
    simp only [tokenizeLoop, Except.ok.injEq] at hts
    subst hts
    simp at ht
  | case2 c cs off hws ih =>
    intro ts hts t ht
    simp only [tokenizeLoop, hws, if_true] at hts
    exact ih ts hts t ht
  | case3 c cs off hws hd ds ts' heq ih =>
    intro ts hts t ht
    simp only [tokenizeLoop, hws, hd, heq, if_false, if_true, Bool.false_eq_true,
      Except.ok.injEq] at hts
    subst hts
    rcases List.mem_cons.mp ht with rfl | hmem
    · refine Or.inl ⟨String.mk (c :: cs.takeWhile isAsciiDigit), off, rfl, by simp, ?_⟩
      simp only [List.all_cons, Bool.and_eq_true, List.all_eq_true]
      exact ⟨hd, fun x hx => List.mem_takeWhile_imp hx⟩
    · exact ih ts' heq t hmem
  | case4 c cs off hws hd ds e heq ih =>
    intro ts hts t ht
    simp only [tokenizeLoop, hws, hd, heq, if_false, if_true, Bool.false_eq_true] at hts
    exact Except.noConfusion hts
  | case5 cs off ts' heq hws hd ih =>
    intro ts hts t ht
    simp only [tokenizeLoop, hws, hd, heq, if_false, if_true, Bool.false_eq_true,
      reduceIte, Except.ok.injEq] at hts
    subst hts
    rcases List.mem_cons.mp ht with rfl | hmem
    · exact Or.inr ⟨BinaryOp.Plus, off, rfl, Or.inl rfl⟩
    · exact ih ts' heq t hmem
  | case6 cs off e heq hws hd ih =>
    intro ts hts t ht
    simp only [tokenizeLoop, hws, hd, heq, if_false, if_true, Bool.false_eq_true,
      reduceIte] at hts
    exact Except.noConfusion hts
  | case7 cs off ts' heq hws hd hp ih =>
    intro ts hts t ht
    simp only [tokenizeLoop, hws, hd, hp, heq, if_false, if_true, Bool.false_eq_true,
      reduceIte, Except.ok.injEq] at hts
    subst hts
    rcases List.mem_cons.mp ht with rfl | hmem
    · exact Or.inr ⟨BinaryOp.Minus, off, rfl, Or.inr (Or.inl rfl)⟩
    · exact ih ts' heq t hmem
  | case8 cs off e heq hws hd hp ih =>
    intro ts hts t ht
    simp only [tokenizeLoop, hws, hd, hp, heq, if_false, if_true, Bool.false_eq_true,
      reduceIte] at hts
    exact Except.noConfusion hts
  | case9 cs off ts' heq hws hd hp hm ih =>
    intro ts hts t ht
    simp only [tokenizeLoop, hws, hd, hp, hm, heq, if_false, if_true, Bool.false_eq_true,
      reduceIte, Except.ok.injEq] at hts
    subst hts
    rcases List.mem_cons.mp ht with rfl | hmem
    · exact Or.inr ⟨BinaryOp.Star, off, rfl, Or.inr (Or.inr rfl)⟩
    · exact ih ts' heq t hmem
  | case10 cs off e heq hws hd hp hm ih =>
    intro ts hts t ht
    simp only [tokenizeLoop, hws, hd, hp, hm, heq, if_false, if_true, Bool.false_eq_true,
      reduceIte] at hts
    exact Except.noConfusion hts
  | case11 c cs off hws hd hp hm hs =>
    intro ts hts t ht
    simp only [tokenizeLoop, hws, hd, hp, hm, hs, if_false, if_true,
      Bool.false_eq_true] at hts
    exact Except.noConfusion hts

theorem tokenizeLoop_offsets (src : List Char) (off : Nat) :
    ∀ ts, tokenizeLoop src off = .ok ts → ∀ t ∈ ts,
      ∃ k, tokOffset t = some (off + k) ∧ src[k]? = tokFirstChar t := by
  induction src, off using tokenizeLoop.induct with
  | case1 off =>
    intro ts hts t ht
    simp only [tokenizeLoop, Except.ok.injEq] at hts
    subst hts
    simp at ht
  | case2 c cs off hws ih =>
    intro ts hts t ht
    simp only [tokenizeLoop, hws, if_true] at hts
    obtain ⟨k, hk1, hk2⟩ := ih ts hts t ht
    refine ⟨k + 1, ?_, by simpa using hk2⟩
    rw [hk1]
    congr 1
    omega
  | case3 c cs off hws hd ds ts' heq ih =>
    intro ts hts t ht
    simp only [tokenizeLoop, hws, hd, heq, if_false, if_true, Bool.false_eq_true,
      Except.ok.injEq] at hts
    subst hts
    rcases List.mem_cons.mp ht with rfl | hmem
    · exact ⟨0, by simp [tokOffset], by simp [tokFirstChar]⟩
    · obtain ⟨k, hk1, hk2⟩ := ih ts' heq t hmem
      have hds : ds.length = (cs.takeWhile isAsciiDigit).length := rfl
      refine ⟨(cs.takeWhile isAsciiDigit).length + k + 1, ?_, ?_⟩
      · rw [hk1]
        congr 1
        omega
      · rw [List.getElem?_cons_succ]
        have hsp := @List.getElem?_append_right Char (cs.takeWhile isAsciiDigit)
          (cs.dropWhile isAsciiDigit) ((cs.takeWhile isAsciiDigit).length + k) (by omega)
        rw [List.takeWhile_append_dropWhile] at hsp
        rw [hsp]
        simpa using hk2
  | case4 c cs off hws hd ds e heq ih =>
    intro ts hts t ht
    simp only [tokenizeLoop, hws, hd, heq, if_false, if_true, Bool.false_eq_true] at hts
    exact Except.noConfusion hts
  | case5 cs off ts' heq hws hd ih =>
    intro ts hts t ht
    simp only [tokenizeLoop, hws, hd, heq, if_false, if_true, Bool.false_eq_true,
      reduceIte, Except.ok.injEq] at hts
    subst hts
    rcases List.mem_cons.mp ht with rfl | hmem
    · exact ⟨0, by simp [tokOffset], by simp [tokFirstChar]⟩
    · obtain ⟨k, hk1, hk2⟩ := ih ts' heq t hmem
      refine ⟨k + 1, ?_, by simpa using hk2⟩
      rw [hk1]
      congr 1
      omega
  | case6 cs off e heq hws hd ih =>
    intro ts hts t ht
    simp only [tokenizeLoop, hws, hd, heq, if_false, if_true, Bool.false_eq_true,
      reduceIte] at hts
    exact Except.noConfusion hts
  | case7 cs off ts' heq hws hd hp ih =>
    intro ts hts t ht
    simp only [tokenizeLoop, hws, hd, hp, heq, if_false, if_true, Bool.false_eq_true,
      reduceIte, Except.ok.injEq] at hts
    subst hts
    rcases List.mem_cons.mp ht with rfl | hmem
    · exact ⟨0, by simp [tokOffset], by simp [tokFirstChar]⟩
    · obtain ⟨k, hk1, hk2⟩ := ih ts' heq t hmem
      refine ⟨k + 1, ?_, by simpa using hk2⟩
      rw [hk1]
      congr 1
      omega
  | case8 cs off e heq hws hd hp ih =>
    intro ts hts t ht
    simp only [tokenizeLoop, hws, hd, hp, heq, if_false, if_true, Bool.false_eq_true,
      reduceIte] at hts
    exact Except.noConfusion hts
  | case9 cs off ts' heq hws hd hp hm ih =>
    intro ts hts t ht
    simp only [tokenizeLoop, hws, hd, hp, hm, heq, if_false, if_true, Bool.false_eq_true,
      reduceIte, Except.ok.injEq] at hts
    subst hts
    rcases List.mem_cons.mp ht with rfl | hmem
    · exact ⟨0, by simp [tokOffset], by simp [tokFirstChar]⟩
    · obtain ⟨k, hk1, hk2⟩ := ih ts' heq t hmem
      refine ⟨k + 1, ?_, by simpa using hk2⟩
      rw [hk1]
      congr 1
      omega
  | case10 cs off e heq hws hd hp hm ih =>
    intro ts hts t ht
    simp only [tokenizeLoop, hws, hd, hp, hm, heq, if_false, if_true, Bool.false_eq_true,
      reduceIte] at hts
    exact Except.noConfusion hts
  | case11 c cs off hws hd hp hm hs =>
    intro ts hts t ht
    simp only [tokenizeLoop, hws, hd, hp, hm, hs, if_false, if_true,
      Bool.false_eq_true] at hts
    exact Except.noConfusion hts

theorem tokenizeLoop_badchar (src : List Char) (off : Nat) :
    (∃ c ∈ src, rustWhitespace c = false ∧ isAsciiDigit c = false ∧ isOperatorChar c = false) →
      tokenizeLoop src off = .error TokenizeError.UnexpectedChar := by
  induction src, off using tokenizeLoop.induct with
  | case1 off =>
    rintro ⟨c, hc, _⟩
    simp at hc
  | case2 c cs off hws ih =>
    rintro ⟨d, hd, hbad⟩
    rcases List.mem_cons.mp hd with rfl | hmem
    · rw [hws] at hbad
      exact absurd hbad.1 (by simp)
    · simp only [tokenizeLoop, hws, if_true]
      exact ih ⟨d, hmem, hbad⟩
  | case3 c cs off hws hd ds ts' heq ih =>
    rintro ⟨d, hdm, hbad⟩
    rcases List.mem_cons.mp hdm with rfl | hmem
    · rw [hd] at hbad
      exact absurd hbad.2.1 (by simp)
    · have hdrop : d ∈ cs.dropWhile isAsciiDigit := by
        rw [← List.takeWhile_append_dropWhile (p := isAsciiDigit) (l := cs)] at hmem
        rcases List.mem_append.mp hmem with htk | hdp
        · exact absurd (List.mem_takeWhile_imp htk) (by simp [hbad.2.1])
        · exact hdp
      have := ih ⟨d, hdrop, hbad⟩
      rw [this] at heq
      exact Except.noConfusion heq
  | case4 c cs off hws hd ds e heq ih =>
    rintro ⟨d, hdm, hbad⟩
    have he : e = TokenizeError.UnexpectedChar := by cases e; rfl
    subst he
    simp only [tokenizeLoop, hws, hd, heq, if_false, if_true, Bool.false_eq_true]
  | case5 cs off ts' heq hws hd ih =>
    rintro ⟨d, hdm, hbad⟩
    rcases List.mem_cons.mp hdm with rfl | hmem
    · exact absurd hbad.2.2 (by simp [isOperatorChar])
    · have := ih ⟨d, hmem, hbad⟩
      rw [this] at heq
      exact Except.noConfusion heq
  | case6 cs off e heq hws hd ih =>
    rintro ⟨d, hdm, hbad⟩
    have he : e = TokenizeError.UnexpectedChar := by cases e; rfl
    subst he
    simp only [tokenizeLoop, hws, hd, heq, if_false, if_true, Bool.false_eq_true, reduceIte]
  | case7 cs off ts' heq hws hd hp ih =>
    rintro ⟨d, hdm, hbad⟩
    rcases List.mem_cons.mp hdm with rfl | hmem
    · exact absurd hbad.2.2 (by simp [isOperatorChar])
    · have := ih ⟨d, hmem, hbad⟩
      rw [this] at heq
      exact Except.noConfusion heq
  | case8 cs off e heq hws hd hp ih =>
    rintro ⟨d, hdm, hbad⟩
    have he : e = TokenizeError.UnexpectedChar := by cases e; rfl
    subst he
    simp only [tokenizeLoop, hws, hd, hp, heq, if_false, if_true, Bool.false_eq_true, reduceIte]
  | case9 cs off ts' heq hws hd hp hm ih =>
    rintro ⟨d, hdm, hbad⟩
    rcases List.mem_cons.mp hdm with rfl | hmem
    · exact absurd hbad.2.2 (by simp [isOperatorChar])
    · have := ih ⟨d, hmem, hbad⟩
      rw [this] at heq
      exact Except.noConfusion heq
  | case10 cs off e heq hws hd hp hm ih =>
    rintro ⟨d, hdm, hbad⟩
    have he : e = TokenizeError.UnexpectedChar := by cases e; rfl
    subst he
    simp only [tokenizeLoop, hws, hd, hp, hm, heq, if_false, if_true, Bool.false_eq_true,
      reduceIte]
  | case11 c cs off hws hd hp hm hs =>
    intro _h
    simp only [tokenizeLoop, hws, hd, hp, hm, hs, if_false, if_true, Bool.false_eq_true]

theorem specCountDigitRuns_not_digit {c : Char} (cs : List Char)
    (h : isAsciiDigit c = false) :
    specCountDigitRuns (c :: cs) = specCountDigitRuns cs := by
  simp [specCountDigitRuns, h]

theorem specCountDigitRuns_digit {c : Char} (cs : List Char)
    (h : isAsciiDigit c = true) :
    specCountDigitRuns (c :: cs) = 1 + specCountDigitRuns (cs.dropWhile isAsciiDigit) := by
  simp [specCountDigitRuns, h]

theorem filter_ops_digit_run {c : Char} (cs : List Char) (h : isAsciiDigit c = true) :
    (c :: cs).filter isOperatorChar = (cs.dropWhile isAsciiDigit).filter isOperatorChar := by
  rw [List.filter_cons_of_neg (by simp [digit_not_op h])]
  conv_lhs => rw [← List.takeWhile_append_dropWhile (p := isAsciiDigit) (l := cs)]
  rw [List.filter_append]
  have : (cs.takeWhile isAsciiDigit).filter isOperatorChar = [] := by
    rw [List.filter_eq_nil_iff]
    intro a ha
    simp [digit_not_op (List.mem_takeWhile_imp ha)]
  rw [this, List.nil_append]

theorem tokenizeLoop_benign (src : List Char) (off : Nat) :
    (∀ c ∈ src, rustWhitespace c = true ∨ isAsciiDigit c = true ∨ isOperatorChar c = true) →
      ∃ ts, tokenizeLoop src off = .ok ts ∧
        ts.length = specCountDigitRuns src + (src.filter isOperatorChar).length := by
  induction src, off using tokenizeLoop.induct with
  | case1 off =>
    intro _h
    exact ⟨[], by simp [tokenizeLoop], by simp [specCountDigitRuns]⟩
  | case2 c cs off hws ih =>
    intro h
    obtain ⟨ts, hts, hlen⟩ := ih (fun d hd => h d (List.mem_cons_of_mem _ hd))
    refine ⟨ts, by simp only [tokenizeLoop, hws, if_true]; exact hts, ?_⟩
    rw [hlen, specCountDigitRuns_not_digit cs (ws_not_digit hws),
      List.filter_cons_of_neg (by simp [ws_not_op hws])]
  | case3 c cs off hws hd ds ts' heq ih =>
    intro h
    obtain ⟨ts2, hts2, hlen2⟩ := ih (fun d hdm =>
      h d (List.mem_cons_of_mem _ ((List.dropWhile_sublist _).subset hdm)))
    rw [heq] at hts2
    injection hts2 with h'
    subst h'
    refine ⟨Token.Number (String.mk (c :: ds)) [] off :: ts', ?_, ?_⟩
    · simp only [tokenizeLoop, hws, hd, heq, if_false, if_true, Bool.false_eq_true]
    · simp only [List.length_cons]
      rw [hlen2, specCountDigitRuns_digit cs hd, filter_ops_digit_run cs hd]
      omega
  | case4 c cs off hws hd ds e heq ih =>
    intro h
    obtain ⟨ts2, hts2, _⟩ := ih (fun d hdm =>
      h d (List.mem_cons_of_mem _ ((List.dropWhile_sublist _).subset hdm)))
    rw [heq] at hts2
    exact Except.noConfusion hts2
  | case5 cs off ts' heq hws hd ih =>
    intro h
    obtain ⟨ts2, hts2, hlen2⟩ := ih (fun d hd => h d (List.mem_cons_of_mem _ hd))
    rw [heq] at hts2
    injection hts2 with h'
    subst h'
    refine ⟨Token.BinaryOperator BinaryOp.Plus off :: ts', ?_, ?_⟩
    · simp only [tokenizeLoop, hws, hd, heq, if_false, if_true, Bool.false_eq_true, reduceIte]
    · simp only [List.length_cons]
      rw [hlen2, specCountDigitRuns_not_digit cs (by simpa using hd),
        List.filter_cons_of_pos (by simp [isOperatorChar])]
      simp only [List.length_cons]
      omega
  | case6 cs off e heq hws hd ih =>
    intro h
    obtain ⟨ts2, hts2, _⟩ := ih (fun d hd => h d (List.mem_cons_of_mem _ hd))
    rw [heq] at hts2
    exact Except.noConfusion hts2
  | case7 cs off ts' heq hws hd hp ih =>
    intro h
    obtain ⟨ts2, hts2, hlen2⟩ := ih (fun d hd => h d (List.mem_cons_of_mem _ hd))
    rw [heq] at hts2
    injection hts2 with h'
    subst h'
    refine ⟨Token.BinaryOperator BinaryOp.Minus off :: ts', ?_, ?_⟩
    · simp only [tokenizeLoop, hws, hd, hp, heq, if_false, if_true, Bool.false_eq_true,
        reduceIte]
    · simp only [List.length_cons]
      rw [hlen2, specCountDigitRuns_not_digit cs (by simpa using hd),
        List.filter_cons_of_pos (by simp [isOperatorChar])]
      simp only [List.length_cons]
      omega
  | case8 cs off e heq hws hd hp ih =>
    intro h
    obtain ⟨ts2, hts2, _⟩ := ih (fun d hd => h d (List.mem_cons_of_mem _ hd))
    rw [heq] at hts2
    exact Except.noConfusion hts2
  | case9 cs off ts' heq hws hd hp hm ih =>
    intro h
    obtain ⟨ts2, hts2, hlen2⟩ := ih (fun d hd => h d (List.mem_cons_of_mem _ hd))
    rw [heq] at hts2
    injection hts2 with h'
    subst h'
    refine ⟨Token.BinaryOperator BinaryOp.Star off :: ts', ?_, ?_⟩
    · simp only [tokenizeLoop, hws, hd, hp, hm, heq, if_false, if_true, Bool.false_eq_true,
        reduceIte]
    · simp only [List.length_cons]
      rw [hlen2, specCountDigitRuns_not_digit cs (by simpa using hd),
        List.filter_cons_of_pos (by simp [isOperatorChar])]
      simp only [List.length_cons]
      omega
  | case10 cs off e heq hws hd hp hm ih =>
    intro h
    obtain ⟨ts2, hts2, _⟩ := ih (fun d hd => h d (List.mem_cons_of_mem _ hd))
    rw [heq] at hts2
    exact Except.noConfusion hts2
  | case11 c cs off hws hd hp hm hs =>
    intro h
    rcases h c (List.mem_cons_self c cs) with hc | hc | hc
    · exact absurd hc hws
    · exact absurd hc hd
    · rcases op_cases hc with rfl | rfl | rfl
      · exact absurd rfl hp
      · exact absurd rfl hm
      · exact absurd rfl hs

/-- C7: for every source string consisting solely of whitespace characters,
the characters `+ - *`, and ASCII digits, `Tokenizer::tokenize` returns
`Ok` (the `UnexpectedChar` branch is unreachable), and the number of tokens
returned equals the number of maximal digit runs plus the number of
operator characters in the source. -/
theorem c7_benign_sources_lex (src : List Char)
    (h : ∀ c ∈ src, rustWhitespace c = true ∨ isAsciiDigit c = true ∨
      isOperatorChar c = true) :
    ∃ ts, Tokenizer.tokenize src = .ok ts ∧
      ts.length = specCountDigitRuns src + (src.filter isOperatorChar).length :=
  tokenizeLoop_benign src 0 h

theorem c7_witness :
    ∃ ts, Tokenizer.tokenize "12 + 3*45 - 6".toList = .ok ts ∧
      ts.length = specCountDigitRuns "12 + 3*45 - 6".toList +
        ("12 + 3*45 - 6".toList.filter isOperatorChar).length :=
  c7_benign_sources_lex "12 + 3*45 - 6".toList (by decide)

/-- C8 is false as stated: offsets count characters, not bytes. Tokenizing
the two-character source `U+00A0` (a multi-byte whitespace character in
UTF-8) followed by `1` stores offset 1 in the number token, while the byte
index of that token's first character in the UTF-8 encoding of the source
is 2. -/
theorem c8_counterexample :
    Tokenizer.tokenize ['\u00A0', '1'] = .ok [Token.Number "1" [] 1] ∧
    utf8ByteIndex ['\u00A0', '1'] 1 = 2 ∧ (1 : Nat) ≠ 2 := by
  refine ⟨?_, by decide, by decide⟩
  simp [Tokenizer.tokenize, tokenizeLoop, rustWhitespace, isAsciiDigit]

/-- C8 (amended): for every source on which `tokenize` succeeds, the offset
stored in each token is the character index (not the byte index) of the
token's first character: indexing the source's character sequence at the
stored offset yields that token's first character. The stored offset
coincides with the byte index only when the preceding characters are
single-byte. -/
theorem c8_offsets_are_char_indices (src : List Char) (ts : List Token)
    (h : Tokenizer.tokenize src = .ok ts) :
    ∀ t ∈ ts, ∃ k, tokOffset t = some k ∧ src[k]? = tokFirstChar t := by
  intro t ht
  obtain ⟨k, h1, h2⟩ := tokenizeLoop_offsets src 0 ts h t ht
  exact ⟨k, by simpa using h1, h2⟩

theorem c8_witness :
    (∃ k, tokOffset (Token.Number "7" [] 1) = some k ∧
      (" 7+".toList)[k]? = tokFirstChar (Token.Number "7" [] 1)) ∧
    (∃ k, tokOffset (Token.BinaryOperator BinaryOp.Plus 2) = some k ∧
      (" 7+".toList)[k]? = tokFirstChar (Token.BinaryOperator BinaryOp.Plus 2)) := by
  have htok : Tokenizer.tokenize " 7+".toList =
      .ok [Token.Number "7" [] 1, Token.BinaryOperator BinaryOp.Plus 2] := by
    simp [Tokenizer.tokenize, tokenizeLoop, rustWhitespace, isAsciiDigit, String.toList]
  exact ⟨c8_offsets_are_char_indices " 7+".toList _ htok _ (by simp),
    c8_offsets_are_char_indices " 7+".toList _ htok _ (by simp)⟩

/-- C10: every token in a successful `tokenize` result is either a `Number`
token or a `BinaryOperator` token with operator `Plus`, `Minus` or `Star`
(never an identifier, keyword, colon, equals, semicolon, or parenthesis
token), and any source containing a character outside ASCII digits,
`+ - *` and whitespace fails with `UnexpectedChar`. -/
theorem c10_lexer_token_classes :
    (∀ src ts, Tokenizer.tokenize src = .ok ts → ∀ t ∈ ts,
      (∃ raw flags o, t = Token.Number raw flags o) ∨
      (∃ op o, (op = BinaryOp.Plus ∨ op = BinaryOp.Minus ∨ op = BinaryOp.Star) ∧
        t = Token.BinaryOperator op o)) ∧
    (∀ src, (∃ c ∈ src, rustWhitespace c = false ∧ isAsciiDigit c = false ∧
        isOperatorChar c = false) →
      Tokenizer.tokenize src = .error TokenizeError.UnexpectedChar) := by
  constructor
  · intro src ts h t ht
    rcases tokenizeLoop_tokens src 0 ts h t ht with ⟨raw, o, rfl, _, _⟩ | ⟨op, o, rfl, hop⟩
    · exact Or.inl ⟨raw, [], o, rfl⟩
    · exact Or.inr ⟨op, o, hop, rfl⟩
  · intro src h
    obtain ⟨c, hc, h1, h2, h3⟩ := h
    exact tokenizeLoop_badchar src 0 ⟨c, hc, h1, h2, h3⟩

theorem c10_witness :
    ((∃ raw flags o, Token.Number "4" [] 0 = Token.Number raw flags o) ∨
      (∃ op o, (op = BinaryOp.Plus ∨ op = BinaryOp.Minus ∨ op = BinaryOp.Star) ∧
        Token.Number "4" [] 0 = Token.BinaryOperator op o)) ∧
    Tokenizer.tokenize "4#".toList = .error TokenizeError.UnexpectedChar := by
  constructor
  · refine c10_lexer_token_classes.1 "4".toList [Token.Number "4" [] 0] ?_ _ (by simp)
    simp [Tokenizer.tokenize, tokenizeLoop, rustWhitespace, isAsciiDigit, String.toList]
  · exact c10_lexer_token_classes.2 "4#".toList ⟨'#', by decide, by decide, by decide, by decide⟩

/-- C1: for the source text `let a: u64 = (123 + 69) * 2;`, lexing (by the
fuller lexer modelled from the spec, since the variants it must produce are
missing from the tokenizer under src/) followed by `AstParser::parse`
succeeds and yields exactly one `Let` statement whose name is `a`, whose
type string is `u64`, and whose value is
`BinaryOperation(BinaryOperation(Number(123), Plus, Number(69)), Star,
Number(2))`. -/
theorem c1_let_statement_pipeline :
    fullTokenize "let a: u64 = (123 + 69) * 2;".toList =
      .ok [Token.Let, Token.Identifier "a", Token.Colon, Token.Identifier "u64",
        Token.SingleEqual, Token.OpenParen, Token.Number "123" [] 14,
        Token.BinaryOperator BinaryOp.Plus 18, Token.Number "69" [] 20,
        Token.CloseParen, Token.BinaryOperator BinaryOp.Star 24,
        Token.Number "2" [] 26, Token.Semicolon] ∧
    AstParser.parse [Token.Let, Token.Identifier "a", Token.Colon, Token.Identifier "u64",
        Token.SingleEqual, Token.OpenParen, Token.Number "123" [] 14,
        Token.BinaryOperator BinaryOp.Plus 18, Token.Number "69" [] 20,
        Token.CloseParen, Token.BinaryOperator BinaryOp.Star 24,
        Token.Number "2" [] 26, Token.Semicolon] =
      .ok [AstStatement.Let
        (AstExpression.BinaryOperation
          (AstExpression.BinaryOperation (AstExpression.Number "123" []) BinaryOp.Plus
            (AstExpression.Number "69" []))
          BinaryOp.Star (AstExpression.Number "2" []))
        "a" "u64"] := by
  constructor
  · simp [fullTokenize, fullTokenizeLoop, rustWhitespace, isAsciiDigit, isAsciiAlpha,
      isWordChar, String.toList]
  · simp [AstParser.parse, expressionImpl, termImpl, termLoopImpl, exprLoopImpl, factorImpl]

/-- C2: parsing the token sequence lexed from `123 + 69 * 2` yields exactly
`BinaryOperation(Number(123), Plus, BinaryOperation(Number(69), Star,
Number(2)))`: `Star` binds tighter than `Plus`/`Minus` without parentheses,
and each binary step puts the previously accumulated node on the left. -/
theorem c2_precedence :
    Tokenizer.tokenize "123 + 69 * 2".toList =
      .ok [Token.Number "123" [] 0, Token.BinaryOperator BinaryOp.Plus 4,
        Token.Number "69" [] 6, Token.BinaryOperator BinaryOp.Star 9,
        Token.Number "2" [] 11] ∧
    AstParser.expression [Token.Number "123" [] 0, Token.BinaryOperator BinaryOp.Plus 4,
        Token.Number "69" [] 6, Token.BinaryOperator BinaryOp.Star 9,
        Token.Number "2" [] 11] =
      .ok (AstExpression.BinaryOperation (AstExpression.Number "123" []) BinaryOp.Plus
        (AstExpression.BinaryOperation (AstExpression.Number "69" []) BinaryOp.Star
          (AstExpression.Number "2" [])), []) := by
  constructor
  · simp [Tokenizer.tokenize, tokenizeLoop, rustWhitespace, isAsciiDigit, String.toList]
  · simp [AstParser.expression, expressionImpl, termImpl, termLoopImpl, exprLoopImpl,
      factorImpl]

/-- C3 is false as stated: this token sequence has a `Semicolon` where the
claim requires `Colon`, a `Colon` where the claim requires `SingleEqual`,
and a `Colon` where the claim requires `Semicolon`, yet `parse` succeeds
with a `Let` statement instead of failing. -/
theorem c3_counterexample :
    AstParser.parse [Token.Let, Token.Identifier "a", Token.Semicolon,
        Token.Identifier "u64", Token.Colon, Token.Number "1" [] 0, Token.Colon] =
      .ok [AstStatement.Let (AstExpression.Number "1" []) "a" "u64"] ∧
    Token.Semicolon ≠ Token.Colon ∧ Token.Colon ≠ Token.SingleEqual ∧
    Token.Colon ≠ Token.Semicolon := by
  refine ⟨?_, by decide, by decide, by decide⟩
  simp [AstParser.parse, expressionImpl, termImpl, termLoopImpl, exprLoopImpl, factorImpl]

/-- C3 (amended): the parser blindly consumes one token at each of the
positions the `// Colon`, `// =` and `// ;` comments refer to, without
inspecting them. For all tokens `c`, `e`, `s` at those positions, a let
statement whose name and type are `Identifier` tokens and whose right-hand
side parses to a `Number` or `BinaryOperation` expression parses
successfully; no error is raised for a non-`Colon`, non-`SingleEqual` or
non-`Semicolon` token at those positions. -/
theorem c3_amended (n ty : String) (c e s : Token) (vts : List Token)
    (value : AstExpression)
    (hv : AstParser.expression (vts ++ [s]) = .ok (value, [s]))
    (hshape : (∃ raw flags, value = AstExpression.Number raw flags) ∨
      (∃ l op r, value = AstExpression.BinaryOperation l op r)) :
    AstParser.parse (Token.Let :: Token.Identifier n :: c :: Token.Identifier ty :: e ::
        (vts ++ [s])) =
      .ok [AstStatement.Let value n ty] := by
  have h4 : (Token.Identifier n :: c :: Token.Identifier ty :: e :: (vts ++ [s])).drop 4 =
      vts ++ [s] := rfl
  have h0 : (Token.Identifier n :: c :: Token.Identifier ty :: e :: (vts ++ [s])).head? =
      some (Token.Identifier n) := rfl
  have h2 : ((Token.Identifier n :: c :: Token.Identifier ty :: e :: (vts ++ [s])).drop 2).head? =
      some (Token.Identifier ty) := rfl
  rw [parse_let, h4, h0, h2, hv]
  rcases hshape with ⟨raw, flags, rfl⟩ | ⟨l, op, r, rfl⟩ <;>
    simp [parse_nil]

theorem c3_witness :
    AstParser.parse (Token.Let :: Token.Identifier "x" :: Token.OpenParen ::
        Token.Identifier "T" :: Token.CloseParen :: ([Token.Number "7" [] 0] ++ [Token.Let])) =
      .ok [AstStatement.Let (AstExpression.Number "7" []) "x" "T"] :=
  c3_amended "x" "T" Token.OpenParen Token.CloseParen Token.Let [Token.Number "7" [] 0]
    (AstExpression.Number "7" [])
    (by simp [AstParser.expression, expressionImpl, termImpl, termLoopImpl, exprLoopImpl,
      factorImpl])
    (Or.inl ⟨"7", [], rfl⟩)

/-- C9: a let statement (name and type both `Identifier` tokens) whose
right-hand side parses to a bare `Identifier` expression fails with
`InvalidLetStatement`; one whose right-hand side parses to a `Number` or a
`BinaryOperation` is accepted. -/
theorem c9_let_rhs_shape (n ty : String) (c e : Token) (vts rest' : List Token)
    (value : AstExpression)
    (hv : AstParser.expression vts = .ok (value, rest')) (hr : rest'.length ≤ 1) :
    ((∃ name, value = AstExpression.Identifier name) →
      AstParser.parse (Token.Let :: Token.Identifier n :: c :: Token.Identifier ty :: e :: vts) =
        .error AstParseError.InvalidLetStatement) ∧
    (((∃ raw flags, value = AstExpression.Number raw flags) ∨
      (∃ l op r, value = AstExpression.BinaryOperation l op r)) →
      AstParser.parse (Token.Let :: Token.Identifier n :: c :: Token.Identifier ty :: e :: vts) =
        .ok [AstStatement.Let value n ty]) := by
  have h4 : (Token.Identifier n :: c :: Token.Identifier ty :: e :: vts).drop 4 = vts := rfl
  have h0 : (Token.Identifier n :: c :: Token.Identifier ty :: e :: vts).head? =
      some (Token.Identifier n) := rfl
  have h2 : ((Token.Identifier n :: c :: Token.Identifier ty :: e :: vts).drop 2).head? =
      some (Token.Identifier ty) := rfl
  have htl : rest'.tail = [] := by
    cases rest' with
    | nil => rfl
    | cons a t =>
      cases t with
      | nil => rfl
      | cons b u => simp at hr
  constructor
  · rintro ⟨name, rfl⟩
    rw [parse_let, h4, h0, h2, hv]
  · rintro (⟨raw, flags, rfl⟩ | ⟨l, op, r, rfl⟩) <;>
      rw [parse_let, h4, h0, h2, hv] <;>
      simp [htl, parse_nil]

theorem c9_witness :
    AstParser.parse (Token.Let :: Token.Identifier "a" :: Token.Colon ::
        Token.Identifier "u64" :: Token.SingleEqual :: [Token.Identifier "b"]) =
      .error AstParseError.InvalidLetStatement ∧
    AstParser.parse (Token.Let :: Token.Identifier "a" :: Token.Colon ::
        Token.Identifier "u64" :: Token.SingleEqual :: [Token.Number "5" [] 13]) =
      .ok [AstStatement.Let (AstExpression.Number "5" []) "a" "u64"] :=
  ⟨(c9_let_rhs_shape "a" "u64" Token.Colon Token.SingleEqual [Token.Identifier "b"] []
      (AstExpression.Identifier "b")
      (by simp [AstParser.expression, expressionImpl, termImpl, termLoopImpl, exprLoopImpl,
        factorImpl])
      (by simp)).1 ⟨"b", rfl⟩,
   (c9_let_rhs_shape "a" "u64" Token.Colon Token.SingleEqual [Token.Number "5" [] 13] []
      (AstExpression.Number "5" [])
      (by simp [AstParser.expression, expressionImpl, termImpl, termLoopImpl, exprLoopImpl,
        factorImpl])
      (by simp)).2 (Or.inl ⟨"5", [], rfl⟩)⟩

theorem generateLoop_eq (stmts : List AstStatement) (acc : List IR) :
    generateLoop stmts acc = acc ++ stmts.map (fun s =>
      match s with
      | AstStatement.Let value name t => IR.DefineVariable name t value
      | AstStatement.Exit value => IR.Exit value) := by
  induction stmts generalizing acc with
  | nil => simp [generateLoop]
  | cons s rest ih =>
    cases s with
    | Let value name t => simp [generateLoop, ih]
    | Exit value => simp [generateLoop, ih]

/-- C5: lowering is total and exactly structure- and order-preserving: the
IR sequence has the same length as the statement sequence, the i-th
`Let {value, name, t}` becomes `DefineVariable {name, t, value}` with the
identical name, type string and unmodified expression tree, the i-th
`Exit {value}` becomes `IR.Exit {value}` with the identical expression
tree, and the i-th IR instruction always comes from the i-th statement. -/
theorem c5_lowering_structure (stmts : List AstStatement) :
    (IrGenerator.generate stmts).length = stmts.length ∧
    ∀ i : Nat, (IrGenerator.generate stmts)[i]? =
      stmts[i]?.map (fun s =>
        match s with
        | AstStatement.Let value name t => IR.DefineVariable name t value
        | AstStatement.Exit value => IR.Exit value) := by
  unfold IrGenerator.generate
  rw [generateLoop_eq]
  constructor
  · simp
  · intro i
    simp [List.getElem?_map]

theorem string_foldl_append (l : List String) (a : String) :
    l.foldl (fun r s => r ++ s) a = a ++ l.foldl (fun r s => r ++ s) "" := by
  induction l generalizing a with
  | nil => simp
  | cons x xs ih =>
    simp only [List.foldl_cons]
    rw [ih (a ++ x), ih ("" ++ x)]
    simp [String.append_assoc]

theorem string_join_cons (s : String) (l : List String) :
    String.join (s :: l) = s ++ String.join l := by
  simp only [String.join, List.foldl_cons]
  rw [string_foldl_append l ("" ++ s)]
  simp

theorem compileLoop_eq (irs : List IR) (acc : String) :
    compileLoop irs acc = acc ++ String.join (irs.map fun ir =>
      match ir with
      | IR.DefineVariable name t value => t ++ " " ++ name ++ " = " ++ value.toString ++ ";\n"
      | IR.Exit value => "exit(" ++ value.toString ++ ");\n") := by
  induction irs generalizing acc with
  | nil => simp [compileLoop, String.join]
  | cons ir rest ih =>
    cases ir with
    | DefineVariable name t value =>
      simp only [compileLoop, List.map_cons]
      rw [ih, string_join_cons]
      simp [String.append_assoc]
    | Exit value =>
      simp only [compileLoop, List.map_cons]
      rw [ih, string_join_cons]
      simp [String.append_assoc]

/-- C6: for every IR sequence, emission produces exactly the fixed
prologue, then one line per instruction in order (`DefineVariable`
producing `<t> <name> = <stringified value>;` and `Exit` producing
`exit(<stringified value>);`), then the fixed epilogue, where an expression
is stringified by in-order traversal as left text, one operator character,
right text, with no parentheses ever inserted. -/
theorem c6_emission_format (irs : List IR) :
    CBackend.compile irs =
      "#include <stdlib.h>\n#include <stdint.h>\n#define u64 uint64_t\nint main() \x7b\n"
        ++ String.join (irs.map fun ir =>
          match ir with
          | IR.DefineVariable name t value =>
            t ++ " " ++ name ++ " = " ++ value.toString ++ ";\n"
          | IR.Exit value => "exit(" ++ value.toString ++ ");\n")
        ++ "\x7d\n" ∧
    ∀ l op r, (AstExpression.BinaryOperation l op r).toString =
      l.toString ++ (match op with
        | BinaryOp.Plus => "+"
        | BinaryOp.Minus => "-"
        | BinaryOp.Star => "*"
        | BinaryOp.SingleEqual => "=") ++ r.toString := by
  constructor
  · unfold CBackend.compile
    rw [compileLoop_eq]
  · intro l op r
    rfl

theorem op_not_digit {c : Char} (h : isOperatorChar c = true) : isAsciiDigit c = false := by
  rcases op_cases h with rfl | rfl | rfl <;> decide

theorem op_not_ws {c : Char} (h : isOperatorChar c = true) : rustWhitespace c = false := by
  rcases op_cases h with rfl | rfl | rfl <;> decide

theorem op_not_alpha {c : Char} (h : isOperatorChar c = true) : isAsciiAlpha c = false := by
  rcases op_cases h with rfl | rfl | rfl <;> decide

theorem digit_not_ws {c : Char} (h : isAsciiDigit c = true) : rustWhitespace c = false := by
  cases hw : rustWhitespace c
  · rfl
  · rw [ws_not_digit hw] at h
    exact absurd h (by simp)

theorem takeWhile_append_of_head {α} (p : α → Bool) (a b : List α)
    (hb : ∀ c, b.head? = some c → p c = false) :
    (a ++ b).takeWhile p = a.takeWhile p := by
  induction a with
  | nil =>
    cases b with
    | nil => rfl
    | cons x xs => simp [List.takeWhile_cons, hb x rfl]
  | cons x xs ih =>
    by_cases hx : p x <;> simp [List.takeWhile_cons, hx, ih]

theorem dropWhile_append_of_head {α} (p : α → Bool) (a b : List α)
    (hb : ∀ c, b.head? = some c → p c = false) :
    (a ++ b).dropWhile p = a.dropWhile p ++ b := by
  induction a with
  | nil =>
    cases b with
    | nil => rfl
    | cons x xs => simp [List.dropWhile_cons, hb x rfl]
  | cons x xs ih =>
    by_cases hx : p x <;> simp [List.dropWhile_cons, hx, ih]

theorem factor_ok_iff {ts : List Token} {f : AstExpression} {rest : List Token} :
    AstParser.factor ts = .ok (f, rest) ↔
      ∃ h : rest.length < ts.length, factorImpl ts = .ok (f, ⟨rest, h⟩) := by
  unfold AstParser.factor
  cases h : factorImpl ts with
  | error e' => simp
  | ok p =>
    obtain ⟨f', rest', hlen⟩ := p
    simp only [Except.ok.injEq, Prod.mk.injEq, Subtype.mk.injEq]
    constructor
    · rintro ⟨rfl, rfl⟩
      exact ⟨hlen, rfl, rfl⟩
    · rintro ⟨hh, rfl, rfl⟩
      exact ⟨rfl, rfl⟩

theorem factor_consumes {ts : List Token} {f : AstExpression} {rest : List Token}
    (h : AstParser.factor ts = .ok (f, rest)) : rest.length < ts.length :=
  (factor_ok_iff.mp h).1

theorem term_ok_iff {ts : List Token} {f : AstExpression} {rest : List Token} :
    AstParser.term ts = .ok (f, rest) ↔
      ∃ h : rest.length < ts.length, termImpl ts = .ok (f, ⟨rest, h⟩) := by
  unfold AstParser.term
  cases h : termImpl ts with
  | error e' => simp
  | ok p =>
    obtain ⟨f', rest', hlen⟩ := p
    simp only [Except.ok.injEq, Prod.mk.injEq, Subtype.mk.injEq]
    constructor
    · rintro ⟨rfl, rfl⟩
      exact ⟨hlen, rfl, rfl⟩
    · rintro ⟨hh, rfl, rfl⟩
      exact ⟨rfl, rfl⟩

theorem term_consumes {ts : List Token} {f : AstExpression} {rest : List Token}
    (h : AstParser.term ts = .ok (f, rest)) : rest.length < ts.length :=
  (term_ok_iff.mp h).1

theorem full_restricted_agree (src : List Char) (off : Nat) :
    (∀ c ∈ src, rustWhitespace c = true ∨ isAsciiDigit c = true ∨ isOperatorChar c = true) →
      fullTokenizeLoop src off = tokenizeLoop src off := by
  induction src, off using tokenizeLoop.induct with
  | case1 off =>
    intro _h
    simp [fullTokenizeLoop, tokenizeLoop]
  | case2 c cs off hws ih =>
    intro h
    rw [show fullTokenizeLoop (c :: cs) off = fullTokenizeLoop cs (off + 1) by
        simp only [fullTokenizeLoop, hws, if_true],
      show tokenizeLoop (c :: cs) off = tokenizeLoop cs (off + 1) by
        simp only [tokenizeLoop, hws, if_true]]
    exact ih (fun d hd => h d (List.mem_cons_of_mem _ hd))
  | case3 c cs off hws hd ds ts' heq ih =>
    intro h
    have ihe := ih (fun d hdm =>
      h d (List.mem_cons_of_mem _ ((List.dropWhile_sublist _).subset hdm)))
    simp only [fullTokenizeLoop, tokenizeLoop, hws, hd, if_false, if_true,
      Bool.false_eq_true, ihe]
  | case4 c cs off hws hd ds e heq ih =>
    intro h
    have ihe := ih (fun d hdm =>
      h d (List.mem_cons_of_mem _ ((List.dropWhile_sublist _).subset hdm)))
    simp only [fullTokenizeLoop, tokenizeLoop, hws, hd, if_false, if_true,
      Bool.false_eq_true, ihe]
  | case5 cs off ts' heq hws hd ih =>
    intro h
    have ihe := ih (fun d hd => h d (List.mem_cons_of_mem _ hd))
    simp only [fullTokenizeLoop, tokenizeLoop, hws, hd, if_false, if_true,
      Bool.false_eq_true, reduceIte, ihe, show isAsciiAlpha '+' = false by decide]
  | case6 cs off e heq hws hd ih =>
    intro h
    have ihe := ih (fun d hd => h d (List.mem_cons_of_mem _ hd))
    simp only [fullTokenizeLoop, tokenizeLoop, hws, hd, if_false, if_true,
      Bool.false_eq_true, reduceIte, ihe, show isAsciiAlpha '+' = false by decide]
  | case7 cs off ts' heq hws hd hp ih =>
    intro h
    have ihe := ih (fun d hd => h d (List.mem_cons_of_mem _ hd))
    simp only [fullTokenizeLoop, tokenizeLoop, hws, hd, hp, if_false, if_true,
      Bool.false_eq_true, reduceIte, ihe, show isAsciiAlpha '-' = false by decide]
  | case8 cs off e heq hws hd hp ih =>
    intro h
    have ihe := ih (fun d hd => h d (List.mem_cons_of_mem _ hd))
    simp only [fullTokenizeLoop, tokenizeLoop, hws, hd, hp, if_false, if_true,
      Bool.false_eq_true, reduceIte, ihe, show isAsciiAlpha '-' = false by decide]
  | case9 cs off ts' heq hws hd hp hm ih =>
    intro h
    have ihe := ih (fun d hd => h d (List.mem_cons_of_mem _ hd))
    simp only [fullTokenizeLoop, tokenizeLoop, hws, hd, hp, hm, if_false, if_true,
      Bool.false_eq_true, reduceIte, ihe, show isAsciiAlpha '*' = false by decide]
  | case10 cs off e heq hws hd hp hm ih =>
    intro h
    have ihe := ih (fun d hd => h d (List.mem_cons_of_mem _ hd))
    simp only [fullTokenizeLoop, tokenizeLoop, hws, hd, hp, hm, if_false, if_true,
      Bool.false_eq_true, reduceIte, ihe, show isAsciiAlpha '*' = false by decide]
  | case11 c cs off hws hd hp hm hs =>
    intro h
    rcases h c (List.mem_cons_self c cs) with hc | hc | hc
    · exact absurd hc hws
    · exact absurd hc hd
    · rcases op_cases hc with rfl | rfl | rfl
      · exact absurd rfl hp
      · exact absurd rfl hm
      · exact absurd rfl hs

theorem tokenizeLoop_append (s1 : List Char) (off : Nat) :
    ∀ ts1 s2 ts2, tokenizeLoop s1 off = .ok ts1 →
      (∀ c, s2.head? = some c → isOperatorChar c = true) →
      tokenizeLoop s2 (off + s1.length) = .ok ts2 →
      tokenizeLoop (s1 ++ s2) off = .ok (ts1 ++ ts2) := by
  induction s1, off using tokenizeLoop.induct with
  | case1 off =>
    intro ts1 s2 ts2 h1 hop h2
    simp only [tokenizeLoop, Except.ok.injEq] at h1
    subst h1
    simpa using h2
  | case2 c cs off hws ih =>
    intro ts1 s2 ts2 h1 hop h2
    simp only [tokenizeLoop, hws, if_true] at h1
    have h2' : tokenizeLoop s2 (off + 1 + cs.length) = .ok ts2 := by
      rw [show off + 1 + cs.length = off + (c :: cs).length by
        simp only [List.length_cons]; omega]
      exact h2
    have hrec := ih ts1 s2 ts2 h1 hop h2'
    rw [List.cons_append]
    simp only [tokenizeLoop, hws, if_true]
    exact hrec
  | case3 c cs off hws hd ds ts' heq ih =>
    intro ts1 s2 ts2 h1 hop h2
    have hds0 : ds = cs.takeWhile isAsciiDigit := rfl
    simp only [tokenizeLoop, hws, hd, heq, if_false, if_true, Bool.false_eq_true,
      Except.ok.injEq] at h1
    subst h1
    have hdig : ∀ c', s2.head? = some c' → isAsciiDigit c' = false :=
      fun c' hc' => op_not_digit (hop c' hc')
    have htw : (cs ++ s2).takeWhile isAsciiDigit = cs.takeWhile isAsciiDigit :=
      takeWhile_append_of_head _ cs s2 hdig
    have hdw : (cs ++ s2).dropWhile isAsciiDigit = cs.dropWhile isAsciiDigit ++ s2 :=
      dropWhile_append_of_head _ cs s2 hdig
    have hlensp : (cs.takeWhile isAsciiDigit).length + (cs.dropWhile isAsciiDigit).length
        = cs.length := by
      conv_rhs => rw [← List.takeWhile_append_dropWhile (p := isAsciiDigit) (l := cs)]
      rw [List.length_append]
    have h2' : tokenizeLoop s2 (off + 1 + (cs.takeWhile isAsciiDigit).length
        + (cs.dropWhile isAsciiDigit).length) = .ok ts2 := by
      rw [show off + 1 + (cs.takeWhile isAsciiDigit).length
          + (cs.dropWhile isAsciiDigit).length = off + (c :: cs).length by
        simp only [List.length_cons]; omega]
      exact h2
    have heq' : tokenizeLoop (cs.dropWhile isAsciiDigit)
        (off + 1 + (cs.takeWhile isAsciiDigit).length) = .ok ts' := by
      rw [← hds0]
      exact heq
    have hrec := ih ts' s2 ts2 heq' hop h2'
    rw [List.cons_append]
    simp only [tokenizeLoop, hws, hd, htw, hdw, if_false, if_true, Bool.false_eq_true, hrec]
    simp [hds0]
  | case4 c cs off hws hd ds e heq ih =>
    intro ts1 s2 ts2 h1 hop h2
    simp only [tokenizeLoop, hws, hd, heq, if_false, if_true, Bool.false_eq_true] at h1
    exact Except.noConfusion h1
  | case5 cs off ts' heq hws hd ih =>
    intro ts1 s2 ts2 h1 hop h2
    simp only [tokenizeLoop, hws, hd, heq, if_false, if_true, Bool.false_eq_true, reduceIte,
      Except.ok.injEq] at h1
    subst h1
    have h2' : tokenizeLoop s2 (off + 1 + cs.length) = .ok ts2 := by
      rw [show off + 1 + cs.length = off + ('+' :: cs).length by
        simp only [List.length_cons]; omega]
      exact h2
    have hrec := ih ts' s2 ts2 heq hop h2'
    rw [List.cons_append]
    simp only [tokenizeLoop, hws, hd, if_false, if_true, Bool.false_eq_true, reduceIte, hrec]
    simp
  | case6 cs off e heq hws hd ih =>
    intro ts1 s2 ts2 h1 hop h2
    simp only [tokenizeLoop, hws, hd, heq, if_false, if_true, Bool.false_eq_true,
      reduceIte] at h1
    exact Except.noConfusion h1
  | case7 cs off ts' heq hws hd hp ih =>
    intro ts1 s2 ts2 h1 hop h2
    simp only [tokenizeLoop, hws, hd, hp, heq, if_false, if_true, Bool.false_eq_true,
      reduceIte, Except.ok.injEq] at h1
    subst h1
    have h2' : tokenizeLoop s2 (off + 1 + cs.length) = .ok ts2 := by
      rw [show off + 1 + cs.length = off + ('-' :: cs).length by
        simp only [List.length_cons]; omega]
      exact h2
    have hrec := ih ts' s2 ts2 heq hop h2'
    rw [List.cons_append]
    simp only [tokenizeLoop, hws, hd, hp, if_false, if_true, Bool.false_eq_true, reduceIte,
      hrec]
    simp
  | case8 cs off e heq hws hd hp ih =>
    intro ts1 s2 ts2 h1 hop h2
    simp only [tokenizeLoop, hws, hd, hp, heq, if_false, if_true, Bool.false_eq_true,
      reduceIte] at h1
    exact Except.noConfusion h1
  | case9 cs off ts' heq hws hd hp hm ih =>
    intro ts1 s2 ts2 h1 hop h2
    simp only [tokenizeLoop, hws, hd, hp, hm, heq, if_false, if_true, Bool.false_eq_true,
      reduceIte, Except.ok.injEq] at h1
    subst h1
    have h2' : tokenizeLoop s2 (off + 1 + cs.length) = .ok ts2 := by
      rw [show off + 1 + cs.length = off + ('*' :: cs).length by
        simp only [List.length_cons]; omega]
      exact h2
    have hrec := ih ts' s2 ts2 heq hop h2'
    rw [List.cons_append]
    simp only [tokenizeLoop, hws, hd, hp, hm, if_false, if_true, Bool.false_eq_true,
      reduceIte, hrec]
    simp
  | case10 cs off e heq hws hd hp hm ih =>
    intro ts1 s2 ts2 h1 hop h2
    simp only [tokenizeLoop, hws, hd, hp, hm, heq, if_false, if_true, Bool.false_eq_true,
      reduceIte] at h1
    exact Except.noConfusion h1
  | case11 c cs off hws hd hp hm hs =>
    intro ts1 s2 ts2 h1 hop h2
    simp only [tokenizeLoop, hws, hd, hp, hm, hs, if_false, if_true,
      Bool.false_eq_true] at h1
    exact Except.noConfusion h1

theorem factor_canonical (ts : List Token) (f : AstExpression) (rest : List Token)
    (hres : ∀ x ∈ ts, LexedNumOp x)
    (h : AstParser.factor ts = .ok (f, rest)) :
    IsFactorTree f ∧ ∀ x ∈ rest, LexedNumOp x := by
  cases ts with
  | nil =>
    rw [show AstParser.factor [] = .error (ExpressionParseError.InvalidFactorToken none) from by
      simp [AstParser.factor, factorImpl]] at h
    exact Except.noConfusion h
  | cons t0 rest0 =>
    rcases hres t0 (List.mem_cons_self _ _) with ⟨raw, off, rfl, hne, hdig⟩ |
      ⟨op, off, rfl, hop⟩
    · rw [factor_number] at h
      simp only [Except.ok.injEq, Prod.mk.injEq] at h
      obtain ⟨rfl, rfl⟩ := h
      exact ⟨IsFactorTree.num raw hne hdig, fun x hx => hres x (List.mem_cons_of_mem _ hx)⟩
    · rw [show AstParser.factor (Token.BinaryOperator op off :: rest0) =
          .error (ExpressionParseError.InvalidFactorToken
            (some (Token.BinaryOperator op off))) from by
        simp [AstParser.factor, factorImpl]] at h
      exact Except.noConfusion h

theorem termLoop_canonical (N : Nat) :
    ∀ ts node t rest, ts.length ≤ N → IsTermTree node → (∀ x ∈ ts, LexedNumOp x) →
      AstParser.termLoop node ts = .ok (t, rest) →
      IsTermTree t ∧ ∀ x ∈ rest, LexedNumOp x := by
  induction N with
  | zero =>
    intro ts node t rest hN hnode hres h
    have hnil : ts = [] := List.length_eq_zero.mp (Nat.le_zero.mp hN)
    subst hnil
    rw [termLoop_stop node [] (by intro o; simp)] at h
    simp only [Except.ok.injEq, Prod.mk.injEq] at h
    obtain ⟨rfl, rfl⟩ := h
    exact ⟨hnode, by simp⟩
  | succ n ih =>
    intro ts node t rest hN hnode hres h
    cases ts with
    | nil =>
      rw [termLoop_stop node [] (by intro o; simp)] at h
      simp only [Except.ok.injEq, Prod.mk.injEq] at h
      obtain ⟨rfl, rfl⟩ := h
      exact ⟨hnode, by simp⟩
    | cons t0 rest0 =>
      rcases hres t0 (List.mem_cons_self _ _) with ⟨raw, off, rfl, hne, hdig⟩ |
        ⟨op, off, rfl, hop⟩
      · rw [termLoop_stop node _ (by intro o; simp)] at h
        simp only [Except.ok.injEq, Prod.mk.injEq] at h
        obtain ⟨rfl, rfl⟩ := h
        exact ⟨hnode, hres⟩
      · rcases hop with rfl | rfl | rfl
        · rw [termLoop_stop node _ (by intro o; simp)] at h
          simp only [Except.ok.injEq, Prod.mk.injEq] at h
          obtain ⟨rfl, rfl⟩ := h
          exact ⟨hnode, hres⟩
        · rw [termLoop_stop node _ (by intro o; simp)] at h
          simp only [Except.ok.injEq, Prod.mk.injEq] at h
          obtain ⟨rfl, rfl⟩ := h
          exact ⟨hnode, hres⟩
        · rw [termLoop_star] at h
          cases hf : AstParser.factor rest0 with
          | error e =>
            rw [hf] at h
            exact Except.noConfusion h
          | ok p =>
            obtain ⟨rhs, rest1⟩ := p
            rw [hf] at h
            have hres0 : ∀ x ∈ rest0, LexedNumOp x :=
              fun x hx => hres x (List.mem_cons_of_mem _ hx)
            obtain ⟨hrhs, hres1⟩ := factor_canonical rest0 rhs rest1 hres0 hf
            have hlen := factor_consumes hf
            simp only [List.length_cons] at hN
            exact ih rest1 (AstExpression.BinaryOperation node BinaryOp.Star rhs) t rest
              (by omega) (IsTermTree.star hnode hrhs) hres1 h

theorem term_canonical (ts : List Token) (t : AstExpression) (rest : List Token)
    (hres : ∀ x ∈ ts, LexedNumOp x) (h : AstParser.term ts = .ok (t, rest)) :
    IsTermTree t ∧ ∀ x ∈ rest, LexedNumOp x := by
  rw [term_eq] at h
  cases hf : AstParser.factor ts with
  | error e =>
    rw [hf] at h
    exact Except.noConfusion h
  | ok p =>
    obtain ⟨f, rest0⟩ := p
    rw [hf] at h
    obtain ⟨hft, hres0⟩ := factor_canonical ts f rest0 hres hf
    exact termLoop_canonical rest0.length rest0 f t rest (le_refl _)
      (IsTermTree.base hft) hres0 h

theorem exprLoop_canonical (N : Nat) :
    ∀ ts node t rest, ts.length ≤ N → IsExprTree node → (∀ x ∈ ts, LexedNumOp x) →
      AstParser.exprLoop node ts = .ok (t, rest) →
      IsExprTree t ∧ ∀ x ∈ rest, LexedNumOp x := by
  induction N with
  | zero =>
    intro ts node t rest hN hnode hres h
    have hnil : ts = [] := List.length_eq_zero.mp (Nat.le_zero.mp hN)
    subst hnil
    rw [exprLoop_stop node [] (by intro o; simp)] at h
    simp only [Except.ok.injEq, Prod.mk.injEq] at h
    obtain ⟨rfl, rfl⟩ := h
    exact ⟨hnode, by simp⟩
  | succ n ih =>
    intro ts node t rest hN hnode hres h
    cases ts with
    | nil =>
      rw [exprLoop_stop node [] (by intro o; simp)] at h
      simp only [Except.ok.injEq, Prod.mk.injEq] at h
      obtain ⟨rfl, rfl⟩ := h
      exact ⟨hnode, by simp⟩
    | cons t0 rest0 =>
      rcases hres t0 (List.mem_cons_self _ _) with ⟨raw, off, rfl, hne, hdig⟩ |
        ⟨op, off, rfl, hop⟩
      · rw [exprLoop_stop node _ (by intro o; simp)] at h
        simp only [Except.ok.injEq, Prod.mk.injEq] at h
        obtain ⟨rfl, rfl⟩ := h
        exact ⟨hnode, hres⟩
      · rcases hop with rfl | rfl | rfl
        · rw [exprLoop_plus] at h
          cases hf : AstParser.term rest0 with
          | error e =>
            rw [hf] at h
            exact Except.noConfusion h
          | ok p =>
            obtain ⟨rhs, rest1⟩ := p
            rw [hf] at h
            have hres0 : ∀ x ∈ rest0, LexedNumOp x :=
              fun x hx => hres x (List.mem_cons_of_mem _ hx)
            obtain ⟨hrhs, hres1⟩ := term_canonical rest0 rhs rest1 hres0 hf
            have hlen := term_consumes hf
            simp only [List.length_cons] at hN
            exact ih rest1 (AstExpression.BinaryOperation node BinaryOp.Plus rhs) t rest
              (by omega) (IsExprTree.plus hnode hrhs) hres1 h
        · rw [exprLoop_minus] at h
          cases hf : AstParser.term rest0 with
          | error e =>
            rw [hf] at h
            exact Except.noConfusion h
          | ok p =>
            obtain ⟨rhs, rest1⟩ := p
            rw [hf] at h
            have hres0 : ∀ x ∈ rest0, LexedNumOp x :=
              fun x hx => hres x (List.mem_cons_of_mem _ hx)
            obtain ⟨hrhs, hres1⟩ := term_canonical rest0 rhs rest1 hres0 hf
            have hlen := term_consumes hf
            simp only [List.length_cons] at hN
            exact ih rest1 (AstExpression.BinaryOperation node BinaryOp.Minus rhs) t rest
              (by omega) (IsExprTree.minus hnode hrhs) hres1 h
        · rw [exprLoop_stop node _ (by intro o; simp)] at h
          simp only [Except.ok.injEq, Prod.mk.injEq] at h
          obtain ⟨rfl, rfl⟩ := h
          exact ⟨hnode, hres⟩

theorem expression_canonical (ts : List Token) (e : AstExpression) (rest : List Token)
    (hres : ∀ x ∈ ts, LexedNumOp x) (h : AstParser.expression ts = .ok (e, rest)) :
    IsExprTree e ∧ ∀ x ∈ rest, LexedNumOp x := by
  rw [expression_eq] at h
  cases ht : AstParser.term ts with
  | error e' =>
    rw [ht] at h
    exact Except.noConfusion h
  | ok p =>
    obtain ⟨t, rest0⟩ := p
    rw [ht] at h
    obtain ⟨htt, hres0⟩ := term_canonical ts t rest0 hres ht
    exact exprLoop_canonical rest0.length rest0 t e rest (le_refl _)
      (IsExprTree.base htt) hres0 h

theorem factor_toks (f : AstExpression) (ts : List Token) (hf : FactorToks f ts) :
    ∀ rest, AstParser.factor (ts ++ rest) = .ok (f, rest) := by
  cases hf with
  | num raw off h1 h2 =>
    intro rest
    rw [List.singleton_append]
    exact factor_number raw [] off rest

theorem starChain_run (node result : AstExpression) (ts : List Token)
    (h : StarChain node result ts) :
    ∀ rest, NoStarHead rest → AstParser.termLoop node (ts ++ rest) = .ok (result, rest) := by
  induction h with
  | nil node =>
    intro rest hrest
    rw [List.nil_append]
    exact termLoop_stop node rest hrest
  | @cons f ts1 node' result' ts2 off hf hchain ih =>
    intro rest hrest
    rw [List.cons_append, List.append_assoc, termLoop_star,
      factor_toks f ts1 hf (ts2 ++ rest)]
    exact ih rest hrest

theorem starChain_snoc (a b : AstExpression) (ts : List Token) (h : StarChain a b ts)
    (r : AstExpression) (ts2 : List Token) (off : Nat) (hr : FactorToks r ts2) :
    StarChain a (AstExpression.BinaryOperation b BinaryOp.Star r)
      (ts ++ Token.BinaryOperator BinaryOp.Star off :: ts2) := by
  induction h with
  | nil node =>
    rw [List.nil_append]
    have := StarChain.cons off hr
      (StarChain.nil (AstExpression.BinaryOperation node BinaryOp.Star r))
    simpa using this
  | @cons f ts1 node' result' tsc off' hf hchain ih =>
    rw [List.cons_append, List.append_assoc]
    exact StarChain.cons off' hf ih

theorem termToks_decomp (t : AstExpression) (ts : List Token) (h : TermToks t ts) :
    ∃ f0 ts0 tsc, FactorToks f0 ts0 ∧ StarChain f0 t tsc ∧ ts = ts0 ++ tsc := by
  induction h with
  | base hf => exact ⟨_, _, [], hf, StarChain.nil _, by simp⟩
  | @star l ts1 r ts2 off hl hr ih =>
    obtain ⟨f0, ts0, tsc, hf0, hchain, rfl⟩ := ih
    exact ⟨f0, ts0, tsc ++ Token.BinaryOperator BinaryOp.Star off :: ts2, hf0,
      starChain_snoc f0 l tsc hchain r ts2 off hr, by simp⟩

theorem term_toks (t : AstExpression) (ts : List Token) (h : TermToks t ts) :
    ∀ rest, NoStarHead rest → AstParser.term (ts ++ rest) = .ok (t, rest) := by
  intro rest hrest
  obtain ⟨f0, ts0, tsc, hf0, hchain, rfl⟩ := termToks_decomp t _ h
  rw [List.append_assoc, term_eq, factor_toks f0 ts0 hf0 (tsc ++ rest)]
  exact starChain_run f0 t tsc hchain rest hrest

theorem pmChain_noStarHead (a b : AstExpression) (ts : List Token) (h : PMChain a b ts)
    (rest : List Token) (hrest : NoStarHead rest) : NoStarHead (ts ++ rest) := by
  cases h with
  | nil _ => simpa using hrest
  | plus off h1 h2 =>
    intro o
    simp
  | minus off h1 h2 =>
    intro o
    simp

theorem pmChain_run (node result : AstExpression) (ts : List Token)
    (h : PMChain node result ts) :
    ∀ rest, NoPMHead rest → NoStarHead rest →
      AstParser.exprLoop node (ts ++ rest) = .ok (result, rest) := by
  induction h with
  | nil node =>
    intro rest h1 h2
    rw [List.nil_append]
    exact exprLoop_stop node rest h1
  | @plus t ts1 node' result' ts2 off ht hchain ih =>
    intro rest h1 h2
    rw [List.cons_append, List.append_assoc, exprLoop_plus,
      term_toks t ts1 ht (ts2 ++ rest) (pmChain_noStarHead _ _ _ hchain rest h2)]
    exact ih rest h1 h2
  | @minus t ts1 node' result' ts2 off ht hchain ih =>
    intro rest h1 h2
    rw [List.cons_append, List.append_assoc, exprLoop_minus,
      term_toks t ts1 ht (ts2 ++ rest) (pmChain_noStarHead _ _ _ hchain rest h2)]
    exact ih rest h1 h2

theorem pmChain_snoc_plus (a b : AstExpression) (ts : List Token) (h : PMChain a b ts)
    (r : AstExpression) (ts2 : List Token) (off : Nat) (hr : TermToks r ts2) :
    PMChain a (AstExpression.BinaryOperation b BinaryOp.Plus r)
      (ts ++ Token.BinaryOperator BinaryOp.Plus off :: ts2) := by
  induction h with
  | nil node =>
    rw [List.nil_append]
    have := PMChain.plus off hr
      (PMChain.nil (AstExpression.BinaryOperation node BinaryOp.Plus r))
    simpa using this
  | @plus t ts1 node' result' tsc off' ht hchain ih =>
    rw [List.cons_append, List.append_assoc]
    exact PMChain.plus off' ht ih
  | @minus t ts1 node' result' tsc off' ht hchain ih =>
    rw [List.cons_append, List.append_assoc]
    exact PMChain.minus off' ht ih

theorem pmChain_snoc_minus (a b : AstExpression) (ts : List Token) (h : PMChain a b ts)
    (r : AstExpression) (ts2 : List Token) (off : Nat) (hr : TermToks r ts2) :
    PMChain a (AstExpression.BinaryOperation b BinaryOp.Minus r)
      (ts ++ Token.BinaryOperator BinaryOp.Minus off :: ts2) := by
  induction h with
  | nil node =>
    rw [List.nil_append]
    have := PMChain.minus off hr
      (PMChain.nil (AstExpression.BinaryOperation node BinaryOp.Minus r))
    simpa using this
  | @plus t ts1 node' result' tsc off' ht hchain ih =>
    rw [List.cons_append, List.append_assoc]
    exact PMChain.plus off' ht ih
  | @minus t ts1 node' result' tsc off' ht hchain ih =>
    rw [List.cons_append, List.append_assoc]
    exact PMChain.minus off' ht ih

theorem exprToks_decomp (e : AstExpression) (ts : List Token) (h : ExprToks e ts) :
    ∃ t0 ts0 tsc, TermToks t0 ts0 ∧ PMChain t0 e tsc ∧ ts = ts0 ++ tsc := by
  induction h with
  | base ht => exact ⟨_, _, [], ht, PMChain.nil _, by simp⟩
  | @plus l ts1 r ts2 off hl hr ih =>
    obtain ⟨t0, ts0, tsc, ht0, hchain, rfl⟩ := ih
    exact ⟨t0, ts0, tsc ++ Token.BinaryOperator BinaryOp.Plus off :: ts2, ht0,
      pmChain_snoc_plus t0 l tsc hchain r ts2 off hr, by simp⟩
  | @minus l ts1 r ts2 off hl hr ih =>
    obtain ⟨t0, ts0, tsc, ht0, hchain, rfl⟩ := ih
    exact ⟨t0, ts0, tsc ++ Token.BinaryOperator BinaryOp.Minus off :: ts2, ht0,
      pmChain_snoc_minus t0 l tsc hchain r ts2 off hr, by simp⟩

theorem exprToks_parse (e : AstExpression) (ts : List Token) (h : ExprToks e ts) :
    AstParser.expression ts = .ok (e, []) := by
  obtain ⟨t0, ts0, tsc, ht0, hchain, rfl⟩ := exprToks_decomp e _ h
  rw [expression_eq]
  have hns : NoStarHead ([] : List Token) := by intro o; simp
  have hnp : NoPMHead ([] : List Token) := by intro o; exact ⟨by simp, by simp⟩
  have h1 : AstParser.term (ts0 ++ tsc) = .ok (t0, tsc) := by
    have hts := term_toks t0 ts0 ht0 tsc
      (by simpa using pmChain_noStarHead _ _ _ hchain [] hns)
    exact hts
  rw [h1]
  have h2 := pmChain_run t0 e tsc hchain [] hnp hns
  simpa using h2

theorem string_data_append (a b : String) : (a ++ b).data = a.data ++ b.data := rfl

theorem gen_factor (f : AstExpression) (hf : IsFactorTree f) (off : Nat) :
    ∃ ts, tokenizeLoop (AstExpression.toString f).data off = .ok ts ∧ FactorToks f ts := by
  cases hf with
  | num raw h1 h2 =>
    cases raw with
    | mk data =>
      cases data with
      | nil => exact absurd rfl h1
      | cons c cs =>
        have hc : isAsciiDigit c = true := by
          simp only [List.all_cons, Bool.and_eq_true] at h2
          exact h2.1
        have hcs : ∀ x ∈ cs, isAsciiDigit x = true := by
          simp only [List.all_cons, Bool.and_eq_true, List.all_eq_true] at h2
          exact h2.2
        have htw : cs.takeWhile isAsciiDigit = cs := List.takeWhile_eq_self_iff.mpr hcs
        have hdw : cs.dropWhile isAsciiDigit = [] := List.dropWhile_eq_nil_iff.mpr hcs
        refine ⟨[Token.Number (String.mk (c :: cs)) [] off], ?_, ?_⟩
        · show tokenizeLoop (c :: cs) off = _
          simp only [tokenizeLoop, digit_not_ws hc, hc, htw, hdw, if_false, if_true,
            Bool.false_eq_true]
        · exact FactorToks.num (String.mk (c :: cs)) off h1 h2

theorem gen_term (t : AstExpression) (ht : IsTermTree t) :
    ∀ off, ∃ ts, tokenizeLoop (AstExpression.toString t).data off = .ok ts ∧ TermToks t ts := by
  induction ht with
  | base hf =>
    intro off
    obtain ⟨ts, hts, hrel⟩ := gen_factor _ hf off
    exact ⟨ts, hts, TermToks.base hrel⟩
  | @star l r hl hr ihl =>
    intro off
    obtain ⟨ts1, h1, hrel1⟩ := ihl off
    obtain ⟨ts2, h2, hrel2⟩ :=
      gen_factor r hr (off + (AstExpression.toString l).data.length + 1)
    have hdata : (AstExpression.toString (AstExpression.BinaryOperation l BinaryOp.Star r)).data
        = (AstExpression.toString l).data ++ '*' :: (AstExpression.toString r).data := by
      simp [AstExpression.toString, string_data_append]
    have hs2 : tokenizeLoop ('*' :: (AstExpression.toString r).data)
        (off + (AstExpression.toString l).data.length) =
        .ok (Token.BinaryOperator BinaryOp.Star
          (off + (AstExpression.toString l).data.length) :: ts2) := by
      simp only [tokenizeLoop, h2, show rustWhitespace '*' = false by decide,
        show isAsciiDigit '*' = false by decide, show ¬('*' = '+') by decide,
        show ¬('*' = '-') by decide, Bool.false_eq_true, if_false, eq_self_iff_true, if_true]
    have happ := tokenizeLoop_append (AstExpression.toString l).data off ts1
      ('*' :: (AstExpression.toString r).data) _ h1
      (fun c hc => by simp only [List.head?_cons, Option.some.injEq] at hc; subst hc; decide)
      hs2
    rw [hdata]
    exact ⟨ts1 ++ Token.BinaryOperator BinaryOp.Star
      (off + (AstExpression.toString l).data.length) :: ts2, happ,
      TermToks.star _ hrel1 hrel2⟩

theorem gen_expr (e : AstExpression) (he : IsExprTree e) :
    ∀ off, ∃ ts, tokenizeLoop (AstExpression.toString e).data off = .ok ts ∧ ExprToks e ts := by
  induction he with
  | base ht =>
    intro off
    obtain ⟨ts, hts, hrel⟩ := gen_term _ ht off
    exact ⟨ts, hts, ExprToks.base hrel⟩
  | @plus l r hl hr ihl =>
    intro off
    obtain ⟨ts1, h1, hrel1⟩ := ihl off
    obtain ⟨ts2, h2, hrel2⟩ :=
      gen_term r hr (off + (AstExpression.toString l).data.length + 1)
    have hdata : (AstExpression.toString (AstExpression.BinaryOperation l BinaryOp.Plus r)).data
        = (AstExpression.toString l).data ++ '+' :: (AstExpression.toString r).data := by
      simp [AstExpression.toString, string_data_append]
    have hs2 : tokenizeLoop ('+' :: (AstExpression.toString r).data)
        (off + (AstExpression.toString l).data.length) =
        .ok (Token.BinaryOperator BinaryOp.Plus
          (off + (AstExpression.toString l).data.length) :: ts2) := by
      simp only [tokenizeLoop, h2, show rustWhitespace '+' = false by decide,
        show isAsciiDigit '+' = false by decide, Bool.false_eq_true, if_false,
        eq_self_iff_true, if_true]
    have happ := tokenizeLoop_append (AstExpression.toString l).data off ts1
      ('+' :: (AstExpression.toString r).data) _ h1
      (fun c hc => by simp only [List.head?_cons, Option.some.injEq] at hc; subst hc; decide)
      hs2
    rw [hdata]
    exact ⟨ts1 ++ Token.BinaryOperator BinaryOp.Plus
      (off + (AstExpression.toString l).data.length) :: ts2, happ,
      ExprToks.plus _ hrel1 hrel2⟩
  | @minus l r hl hr ihl =>
    intro off
    obtain ⟨ts1, h1, hrel1⟩ := ihl off
    obtain ⟨ts2, h2, hrel2⟩ :=
      gen_term r hr (off + (AstExpression.toString l).data.length + 1)
    have hdata : (AstExpression.toString (AstExpression.BinaryOperation l BinaryOp.Minus r)).data
        = (AstExpression.toString l).data ++ '-' :: (AstExpression.toString r).data := by
      simp [AstExpression.toString, string_data_append]
    have hs2 : tokenizeLoop ('-' :: (AstExpression.toString r).data)
        (off + (AstExpression.toString l).data.length) =
        .ok (Token.BinaryOperator BinaryOp.Minus
          (off + (AstExpression.toString l).data.length) :: ts2) := by
      simp only [tokenizeLoop, h2, show rustWhitespace '-' = false by decide,
        show isAsciiDigit '-' = false by decide, show ¬('-' = '+') by decide,
        Bool.false_eq_true, if_false, eq_self_iff_true, if_true]
    have happ := tokenizeLoop_append (AstExpression.toString l).data off ts1
      ('-' :: (AstExpression.toString r).data) _ h1
      (fun c hc => by simp only [List.head?_cons, Option.some.injEq] at hc; subst hc; decide)
      hs2
    rw [hdata]
    exact ⟨ts1 ++ Token.BinaryOperator BinaryOp.Minus
      (off + (AstExpression.toString l).data.length) :: ts2, happ,
      ExprToks.minus _ hrel1 hrel2⟩

theorem factorTree_chars (f : AstExpression) (hf : IsFactorTree f) :
    ∀ c ∈ (AstExpression.toString f).data, isAsciiDigit c = true ∨ isOperatorChar c = true := by
  cases hf with
  | num raw h1 h2 =>
    intro c hc
    exact Or.inl (by
      simp only [List.all_eq_true] at h2
      exact h2 c hc)

theorem termTree_chars (t : AstExpression) (ht : IsTermTree t) :
    ∀ c ∈ (AstExpression.toString t).data, isAsciiDigit c = true ∨ isOperatorChar c = true := by
  induction ht with
  | base hf => exact factorTree_chars _ hf
  | @star l r hl hr ihl =>
    intro c hc
    have hdata : (AstExpression.toString (AstExpression.BinaryOperation l BinaryOp.Star r)).data
        = (AstExpression.toString l).data ++ '*' :: (AstExpression.toString r).data := by
      simp [AstExpression.toString, string_data_append]
    rw [hdata] at hc
    rcases List.mem_append.mp hc with hm | hm
    · exact ihl c hm
    · rcases List.mem_cons.mp hm with rfl | hm'
      · exact Or.inr (by decide)
      · exact factorTree_chars r hr c hm'

theorem exprTree_chars (e : AstExpression) (he : IsExprTree e) :
    ∀ c ∈ (AstExpression.toString e).data, isAsciiDigit c = true ∨ isOperatorChar c = true := by
  induction he with
  | base ht => exact termTree_chars _ ht
  | @plus l r hl hr ihl =>
    intro c hc
    have hdata : (AstExpression.toString (AstExpression.BinaryOperation l BinaryOp.Plus r)).data
        = (AstExpression.toString l).data ++ '+' :: (AstExpression.toString r).data := by
      simp [AstExpression.toString, string_data_append]
    rw [hdata] at hc
    rcases List.mem_append.mp hc with hm | hm
    · exact ihl c hm
    · rcases List.mem_cons.mp hm with rfl | hm'
      · exact Or.inr (by decide)
      · exact termTree_chars r hr c hm'
  | @minus l r hl hr ihl =>
    intro c hc
    have hdata : (AstExpression.toString (AstExpression.BinaryOperation l BinaryOp.Minus r)).data
        = (AstExpression.toString l).data ++ '-' :: (AstExpression.toString r).data := by
      simp [AstExpression.toString, string_data_append]
    rw [hdata] at hc
    rcases List.mem_append.mp hc with hm | hm
    · exact ihl c hm
    · rcases List.mem_cons.mp hm with rfl | hm'
      · exact Or.inr (by decide)
      · exact termTree_chars r hr c hm'

/-- C4: round trip. For every program over digits, `+`, `-`, `*`,
whitespace, and balanced parentheses whose removal does not change grouping
(formalized: the source lexes and parses to the expression tree `e`, and
the same source with every parenthesis removed lexes and parses to the same
tree `e`), stringifying the tree via the emitter's in-order traversal and
then re-lexing and re-parsing that emitted expression text yields an
expression tree equal to the original tree. Lexing parenthesized sources
uses the fuller lexer modelled from the spec, since the parenthesis tokens
it must produce are missing from the tokenizer under src/. -/
theorem c4_roundtrip (src : List Char) (ts ts' : List Token) (e : AstExpression)
    (halpha : ∀ c ∈ src, isAsciiDigit c = true ∨ isOperatorChar c = true ∨
      c = '(' ∨ c = ')' ∨ rustWhitespace c = true)
    (_h1 : fullTokenize src = .ok ts)
    (_h2 : AstParser.expression ts = .ok (e, []))
    (h3 : fullTokenize (stripParens src) = .ok ts')
    (h4 : AstParser.expression ts' = .ok (e, [])) :
    ∃ ts2, fullTokenize (AstExpression.toString e).data = .ok ts2 ∧
      AstParser.expression ts2 = .ok (e, []) := by
  have hben : ∀ c ∈ stripParens src,
      rustWhitespace c = true ∨ isAsciiDigit c = true ∨ isOperatorChar c = true := by
    intro c hc
    unfold stripParens at hc
    obtain ⟨hmem, hpred⟩ := List.mem_filter.mp hc
    rcases halpha c hmem with h | h | h | h | h
    · exact Or.inr (Or.inl h)
    · exact Or.inr (Or.inr h)
    · subst h
      simp at hpred
    · subst h
      simp at hpred
    · exact Or.inl h
  have h3' : tokenizeLoop (stripParens src) 0 = .ok ts' := by
    rw [← full_restricted_agree _ 0 hben]
    exact h3
  have hres : ∀ x ∈ ts', LexedNumOp x := tokenizeLoop_tokens (stripParens src) 0 ts' h3'
  have hcan : IsExprTree e := (expression_canonical ts' e [] hres h4).1
  obtain ⟨ts2, hts2, hrel⟩ := gen_expr e hcan 0
  refine ⟨ts2, ?_, exprToks_parse e ts2 hrel⟩
  unfold fullTokenize
  rw [full_restricted_agree _ 0 (fun c hc => by
    rcases exprTree_chars e hcan c hc with h | h
    · exact Or.inr (Or.inl h)
    · exact Or.inr (Or.inr h))]
  exact hts2

theorem c4_witness :
    ∃ ts2, fullTokenize (AstExpression.toString
        (AstExpression.BinaryOperation
          (AstExpression.BinaryOperation (AstExpression.Number "1" []) BinaryOp.Plus
            (AstExpression.Number "2" []))
          BinaryOp.Plus (AstExpression.Number "3" []))).data = .ok ts2 ∧
      AstParser.expression ts2 = .ok
        (AstExpression.BinaryOperation
          (AstExpression.BinaryOperation (AstExpression.Number "1" []) BinaryOp.Plus
            (AstExpression.Number "2" []))
          BinaryOp.Plus (AstExpression.Number "3" []), []) := by
  refine c4_roundtrip "(1+2)+3".toList
    [Token.OpenParen, Token.Number "1" [] 1, Token.BinaryOperator BinaryOp.Plus 2,
      Token.Number "2" [] 3, Token.CloseParen, Token.BinaryOperator BinaryOp.Plus 5,
      Token.Number "3" [] 6]
    [Token.Number "1" [] 0, Token.BinaryOperator BinaryOp.Plus 1, Token.Number "2" [] 2,
      Token.BinaryOperator BinaryOp.Plus 3, Token.Number "3" [] 4]
    _ (by decide) ?_ ?_ ?_ ?_
  · simp [fullTokenize, fullTokenizeLoop, rustWhitespace, isAsciiDigit, isAsciiAlpha,
      String.toList]
  · simp [AstParser.expression, expressionImpl, termImpl, termLoopImpl, exprLoopImpl,
      factorImpl]
  · simp [stripParens, fullTokenize, fullTokenizeLoop, rustWhitespace, isAsciiDigit,
      isAsciiAlpha, String.toList]
  · simp [AstParser.expression, expressionImpl, termImpl, termLoopImpl, exprLoopImpl,
      factorImpl]
